import Mathlib

/-!
Verification of the spreadsheet recalculation engine (src/src/App.jsx).

The engine is shallowly embedded: a `CellStore` is an association list from
cell identifiers to cell records (value, formula, dependents list, the source
field name being `dependencies`).  The source functions `calculateFormula`,
`hasCircularDependency`, `updateCellAndDependents`, `saveToHistory`,
`handleUndo` and `handleRedo` are translated directly; the unbounded JS
recursions (`hasCircularDependency` and the recursive dependent refresh in
`updateCellAndDependents`) are given an explicit fuel parameter and return
`none` when the fuel runs out, so that termination can be stated as the
existence of a sufficient fuel.  The external `mathjs` evaluator (excluded by
the spec as an external collaborator) is a parameter `ev : String → Option
Value` of the evaluator adapter.
-/

namespace Spreadsheet

/-- A JavaScript value stored in a cell: a number or a string.  The error
tags are the strings "#ERROR" and "#CIRCULAR", as in the source. -/
inductive Value where
  | num (n : Int)
  | str (s : String)
deriving DecidableEq, Repr

/-- A cell record, as built by `updateCellAndDependents`:
`{ value, formula, dependencies }`.  The `dependencies` field (source
spelling) holds the dependents: the cells whose formulas read this cell. -/
structure Cell where
  value : Value
  formula : String
  dependencies : List String
deriving DecidableEq, Repr

/-- The cell store: a finite association list from cell id to cell record,
mirroring the JS object held in the `cells` state. -/
abbrev CellStore := List (String × Cell)

/-- The implicit empty cell used when a referenced cell is materialized:
`{ value: "", formula: "", dependencies: [] }`. -/
def emptyCell : Cell := ⟨Value.str "", "", []⟩

/-- Key lookup in the store (`allCells[id]`). -/
def lookupCell (s : CellStore) (k : String) : Option Cell :=
  (s.find? (fun e => e.1 == k)).map (fun e => e.2)

/-- Functional update of one key (`{ ...allCells, [id]: cell }`). -/
def insertCell (s : CellStore) (k : String) (c : Cell) : CellStore :=
  (k, c) :: s.filter (fun e => e.1 != k)

/-- `allCells[id]?.dependencies || []`. -/
def depsOf (s : CellStore) (k : String) : List String :=
  match lookupCell s k with
  | some c => c.dependencies
  | none => []

/-- The value a cell displays: the stored value, or "" for an absent cell. -/
def valView (s : CellStore) (k : String) : Value :=
  ((lookupCell s k).getD emptyCell).value

/-- The formula a cell holds: the stored formula, or "" for an absent cell. -/
def formView (s : CellStore) (k : String) : String :=
  ((lookupCell s k).getD emptyCell).formula

/-- Does the string start with the formula marker "="?
(`formula.toString().startsWith("=")` in the source.) -/
def startsWithEq (f : String) : Bool :=
  match f.data with
  | [] => false
  | c :: _ => c == '='

def isUpperLetter (c : Char) : Bool := 'A' ≤ c && c ≤ 'Z'

def isDigitCh (c : Char) : Bool := '0' ≤ c && c ≤ '9'

theorem dropWhile_length_le (p : Char → Bool) (l : List Char) :
    (l.dropWhile p).length ≤ l.length := by
  induction l with
  | nil => simp
  | cons c cs ih =>
    by_cases h : p c
    · simp only [List.dropWhile_cons, h, if_true]
      exact Nat.le_succ_of_le ih
    · simp [List.dropWhile_cons, h]

/-- Scanner for all matches of the regex `[A-Z]+[0-9]+` (global flag) over a
character list, left to right, each match maximal, exactly as
`expression.match(/[A-Z]+[0-9]+/g) || []` behaves on an uppercased string.
A match begins at a letter, takes the maximal run of letters, and succeeds
only when at least one digit follows; scanning resumes after the match.  The
fuel only needs to reach the list length, which `extractAux` supplies. -/
def extractAuxF : Nat → List Char → List String
  | 0, _ => []
  | _ + 1, [] => []
  | n + 1, c :: rest =>
    if isUpperLetter c then
      let ls := c :: rest.takeWhile isUpperLetter
      let r1 := rest.dropWhile isUpperLetter
      let ds := r1.takeWhile isDigitCh
      let r2 := r1.dropWhile isDigitCh
      if ds.isEmpty then extractAuxF n r1 else String.mk (ls ++ ds) :: extractAuxF n r2
    else extractAuxF n rest

/-- All regex matches over a character list: the fuel `l.length` always
suffices because every step consumes at least one character. -/
def extractAux (l : List Char) : List String := extractAuxF l.length l

/-- Uppercase a string character-wise (`toUpperCase()` on the ASCII inputs
the grid produces). -/
def upperStr (s : String) : String := String.mk (s.data.map Char.toUpper)

/-- The references extracted for the cycle check and edge insertion:
`newFormula.startsWith("=") ? newFormula.toUpperCase().match(/[A-Z]+[0-9]+/g) || [] : []`. -/
def parentsOf (newFormula : String) : List String :=
  if startsWithEq newFormula then extractAux (upperStr newFormula).data else []

/-- Replace the first occurrence of `pat` in `l` by `repl`
(JS `String.prototype.replace` with a string pattern). -/
def replFirst (l : List Char) (pat repl : List Char) : List Char :=
  match l with
  | [] => []
  | c :: rest =>
    if pat.isPrefixOf (c :: rest) then repl ++ (c :: rest).drop pat.length
    else c :: replFirst rest pat repl

/-- String coercion of a value when substituted into the expression. -/
def valueToString : Value → String
  | Value.num n => toString n
  | Value.str s => s

/-- JS falsiness of a cell value (`value || 0` treats "" and 0 as falsy). -/
def jsFalsy : Value → Bool
  | Value.num n => n == 0
  | Value.str s => s == ""

/-- `currentCells[cellRef]?.value || 0`. -/
def jsOr0 : Option Value → Value
  | none => Value.num 0
  | some v => if jsFalsy v then Value.num 0 else v

/-- Is the value one of the two error tags? -/
def errTagB : Value → Bool
  | Value.str s => s == "#ERROR" || s == "#CIRCULAR"
  | Value.num _ => false

/-- The substitution loop of `calculateFormula`: for each extracted reference
in order, read its current value (`|| 0`), short-circuit to "#ERROR" on an
error tag, otherwise replace the first occurrence of the reference in the
expression; finally hand the expression to the external evaluator, mapping
its failure to "#ERROR". -/
def substLoop (ev : String → Option Value) :
    List String → List Char → CellStore → Value
  | [], expr, _ =>
    match ev (String.mk expr) with
    | some v => v
    | none => Value.str "#ERROR"
  | r :: rs, expr, s =>
    let v := jsOr0 ((lookupCell s r).map (fun c => c.value))
    if errTagB v then Value.str "#ERROR"
    else substLoop ev rs (replFirst expr r.data (valueToString v).data) s

/-- `calculateFormula(formula, currentCells)` from the source, with the
external evaluator `ev` as a parameter. -/
def calculateFormula (ev : String → Option Value) (formula : String)
    (s : CellStore) : Value :=
  if startsWithEq formula then
    let expression := (upperStr formula).data.drop 1
    substLoop ev (extractAux expression) expression s
  else Value.str formula

/-- Short-circuiting disjunction over a list of fuel-limited searches:
`none` aborts, the first `some true` wins, otherwise `some false`.  This is
the `for ... of` loop shape used by both `hasCircularDependency` and the
cycle check of `updateCellAndDependents`. -/
def firstSomeTrue (f : String → Option Bool) : List String → Option Bool
  | [] => some false
  | d :: ds =>
    match f d with
    | none => none
    | some true => some true
    | some false => firstSomeTrue f ds

/-- `hasCircularDependency(startCell, targetCell, allCells)`: fuel-limited
depth-first search from `startCell` along `dependencies` edges, returning
true the moment the current node equals `targetCell`.  `none` means the fuel
ran out before the search finished. -/
def hasCirc : Nat → String → String → CellStore → Option Bool
  | 0, _, _, _ => none
  | Nat.succ n, start, target, s =>
    if start = target then some true
    else firstSomeTrue (fun d => hasCirc n d target s) (depsOf s start)

/-- The cycle-check loop of `updateCellAndDependents`: run
`hasCircularDependency(startCellId, parent, allCells)` for each parent in
order, short-circuiting on the first true. -/
def checkParents (fuel : Nat) (start : String) (s : CellStore) :
    List String → Option Bool :=
  firstSomeTrue (fun p => hasCirc fuel start p s)

/-- One step of the edge-insertion loop: materialize the parent if absent
(`updatedCells[parent] = { value: "", formula: "", dependencies: [] }`), then
push `startCellId` onto `parent.dependencies` if not already present. -/
def addDependent (s : CellStore) (p e : String) : CellStore :=
  let s1 := match lookupCell s p with
    | none => insertCell s p emptyCell
    | some _ => s
  let c1 := (lookupCell s1 p).getD emptyCell
  if e ∈ c1.dependencies then s1
  else insertCell s1 p { c1 with dependencies := c1.dependencies ++ [e] }

/-- `parents.forEach(...)` of the edge-insertion loop. -/
def addEdges (s : CellStore) (parents : List String) (e : String) : CellStore :=
  parents.foldl (fun acc p => addDependent acc p e) s

/-- Right-biased merge `{ ...updatedCells, ...childResult }`. -/
def mergeStores (a b : CellStore) : CellStore :=
  b ++ a.filter (fun e => (lookupCell b e.1).isNone)

/-- The recursive refresh loop over `children`: look the child up in the
current store, skip it if absent, otherwise recompute it with its stored
formula and merge the returned snapshot (right-biased). -/
def goChildren (rec' : String → String → CellStore → Option CellStore) :
    List String → CellStore → Option CellStore
  | [], st => some st
  | c :: cs, st =>
    match lookupCell st c with
    | none => goChildren rec' cs st
    | some cd =>
      match rec' c cd.formula st with
      | none => none
      | some st' => goChildren rec' cs (mergeStores st st')

/-- `updateCellAndDependents(startCellId, newFormula, allCells)` with fuel:
extract parents, run the cycle check (rejecting with "#CIRCULAR", formula
stored, dependents preserved, no edge touched), otherwise compute the new
value, write the cell, insert the back edges, and recursively refresh every
current dependent.  `none` means the fuel ran out. -/
def updateFuel (ev : String → Option Value) :
    Nat → String → String → CellStore → Option CellStore
  | 0, _, _, _ => none
  | Nat.succ n, startCellId, newFormula, allCells =>
    let parents := parentsOf newFormula
    match checkParents (Nat.succ n) startCellId allCells parents with
    | none => none
    | some true =>
      some (insertCell allCells startCellId
        ⟨Value.str "#CIRCULAR", newFormula, depsOf allCells startCellId⟩)
    | some false =>
      let computed := calculateFormula ev newFormula allCells
      let u1 := insertCell allCells startCellId
        ⟨computed, newFormula, depsOf allCells startCellId⟩
      let u2 := addEdges u1 parents startCellId
      goChildren (updateFuel ev n) (depsOf u2 startCellId) u2

/-- A sequence of committed edits, each with its own fuel, starting from a
given store (each commit is a `handleBlur`, i.e. one `updateCellAndDependents`
call on the current store). -/
def runEdits (ev : String → Option Value) :
    List (Nat × String × String) → CellStore → Option CellStore
  | [], s => some s
  | (n, e, f) :: rest, s =>
    match updateFuel ev n e f s with
    | none => none
    | some s' => runEdits ev rest s'

/-- The history manager state: the `history` list of snapshots and the
`historyIndex` cursor. -/
structure HistoryState where
  history : List CellStore
  historyIndex : Nat
deriving DecidableEq

/-- `saveToHistory(newCells)`: truncate after the cursor, append, move the
cursor to the new last index. -/
def saveToHistory (st : HistoryState) (newCells : CellStore) : HistoryState :=
  let newHistory := st.history.take (st.historyIndex + 1) ++ [newCells]
  ⟨newHistory, newHistory.length - 1⟩

/-- `handleUndo`: when the cursor is positive, move it back and return the
snapshot now pointed to; otherwise do nothing. -/
def handleUndo (st : HistoryState) : HistoryState × Option CellStore :=
  if 0 < st.historyIndex then
    (⟨st.history, st.historyIndex - 1⟩, st.history.get? (st.historyIndex - 1))
  else (st, none)

/-- `handleRedo`: when the cursor is not at the last index, advance it and
return the snapshot now pointed to; otherwise do nothing. -/
def handleRedo (st : HistoryState) : HistoryState × Option CellStore :=
  if st.historyIndex < st.history.length - 1 then
    (⟨st.history, st.historyIndex + 1⟩, st.history.get? (st.historyIndex + 1))
  else (st, none)

/-- The dependents edge relation: `y` is listed among `x`'s dependents. -/
def edgeTo (s : CellStore) (x y : String) : Prop := y ∈ depsOf s x

/-- Reflexive-transitive reachability along dependents edges. -/
inductive Reaches (s : CellStore) : String → String → Prop
  | refl (x : String) : Reaches s x x
  | step {x y z : String} : edgeTo s x y → Reaches s y z → Reaches s x z

/-- The dependents graph is acyclic: no edge closes a path back to its
source (equivalently, no cell reaches itself through a nonempty path). -/
def Acyclic (s : CellStore) : Prop :=
  ∀ x y, edgeTo s x y → Reaches s y x → False

/-- The back-edge invariant of the spec: whenever a stored cell's formula
references `Y`, the cell is listed among `Y`'s dependents. -/
def RefsInv (s : CellStore) : Prop :=
  ∀ X cX Y, lookupCell s X = some cX → Y ∈ parentsOf cX.formula →
    X ∈ depsOf s Y

/-- A chain of dependents edges starting at a node: `ChainFrom s x l` holds
when `l` lists the successive targets of edges walked from `x`. -/
def ChainFrom (s : CellStore) : String → List String → Prop
  | _, [] => True
  | x, y :: l => edgeTo s x y ∧ ChainFrom s y l

section StoreLemmas

theorem find?_filter_of_imp (l : List (String × Cell)) (p q : String × Cell → Bool)
    (h : ∀ e, p e = true → q e = true) : (l.filter q).find? p = l.find? p := by
  induction l with
  | nil => rfl
  | cons e es ih =>
    rw [List.filter_cons]
    by_cases hp : p e = true
    · rw [if_pos (h e hp), List.find?_cons_of_pos _ hp, List.find?_cons_of_pos _ hp]
    · by_cases hq : q e = true
      · rw [if_pos hq, List.find?_cons_of_neg _ hp, List.find?_cons_of_neg _ hp, ih]
      · rw [if_neg hq, List.find?_cons_of_neg _ hp, ih]

theorem lookupCell_insert_self (s : CellStore) (k : String) (c : Cell) :
    lookupCell (insertCell s k c) k = some c := by
  unfold lookupCell insertCell
  rw [List.find?_cons_of_pos _ (by simp)]
  rfl

theorem lookupCell_insert_ne (s : CellStore) (k k' : String) (c : Cell) (h : k' ≠ k) :
    lookupCell (insertCell s k c) k' = lookupCell s k' := by
  unfold lookupCell insertCell
  rw [List.find?_cons_of_neg _ (by simp [Ne.symm h]), find?_filter_of_imp]
  intro e he
  have he' : e.1 = k' := by simpa using he
  simp [he', h]

theorem lookupCell_insert (s : CellStore) (k k' : String) (c : Cell) :
    lookupCell (insertCell s k c) k' = if k' = k then some c else lookupCell s k' := by
  by_cases h : k' = k
  · subst h; rw [if_pos rfl, lookupCell_insert_self]
  · rw [if_neg h, lookupCell_insert_ne s k k' c h]

theorem lookupCell_merge (a b : CellStore) (k : String) :
    lookupCell (mergeStores a b) k =
      match lookupCell b k with
      | some c => some c
      | none => lookupCell a k := by
  cases hb : lookupCell b k with
  | some c =>
    have hb' : ∃ e, List.find? (fun e => e.1 == k) b = some e ∧ e.2 = c := by
      unfold lookupCell at hb
      cases hf : List.find? (fun e => e.1 == k) b with
      | none => rw [hf] at hb; cases hb
      | some e => rw [hf] at hb; exact ⟨e, rfl, by simpa using hb⟩
    obtain ⟨e, hf, he⟩ := hb'
    show lookupCell (mergeStores a b) k = some c
    unfold mergeStores lookupCell
    rw [List.find?_append, hf]
    simp [he]
  | none =>
    have hf : List.find? (fun e => e.1 == k) b = none := by
      unfold lookupCell at hb
      cases hf : List.find? (fun e => e.1 == k) b with
      | none => rfl
      | some e => rw [hf] at hb; cases hb
    have himp : ∀ e : String × Cell, (e.1 == k) = true →
        (lookupCell b e.1).isNone = true := by
      intro e he
      have he' : e.1 = k := by simpa using he
      rw [he', hb]
      rfl
    show lookupCell (mergeStores a b) k = lookupCell a k
    unfold mergeStores lookupCell
    rw [List.find?_append, hf, Option.none_or]
    congr 1
    exact find?_filter_of_imp a _ _ (fun e he => himp e he)

theorem lookupCell_isSome_of_mem {s : CellStore} {k : String} {c : Cell}
    (h : (k, c) ∈ s) : (lookupCell s k).isSome = true := by
  unfold lookupCell
  have : (List.find? (fun e => e.1 == k) s).isSome = true :=
    List.find?_isSome.mpr ⟨(k, c), h, by simp⟩
  cases hf : List.find? (fun e => e.1 == k) s with
  | none => rw [hf] at this; cases this
  | some e => rfl

theorem depsOf_insert (s : CellStore) (k k' : String) (c : Cell) :
    depsOf (insertCell s k c) k' = if k' = k then c.dependencies else depsOf s k' := by
  unfold depsOf
  by_cases h : k' = k
  · subst h; rw [lookupCell_insert_self, if_pos rfl]
  · rw [lookupCell_insert_ne _ _ _ _ h, if_neg h]

theorem valView_insert (s : CellStore) (k k' : String) (c : Cell) :
    valView (insertCell s k c) k' = if k' = k then c.value else valView s k' := by
  unfold valView
  by_cases h : k' = k
  · subst h; rw [lookupCell_insert_self, if_pos rfl]; rfl
  · rw [lookupCell_insert_ne _ _ _ _ h, if_neg h]

theorem formView_insert (s : CellStore) (k k' : String) (c : Cell) :
    formView (insertCell s k c) k' = if k' = k then c.formula else formView s k' := by
  unfold formView
  by_cases h : k' = k
  · subst h; rw [lookupCell_insert_self, if_pos rfl]; rfl
  · rw [lookupCell_insert_ne _ _ _ _ h, if_neg h]

/-- The cell `addDependent` leaves at the parent key: the (possibly
materialized) old cell, with the editing cell appended to its dependents
when not already present. -/
theorem lookupCell_addDependent_self (s : CellStore) (p e : String) :
    lookupCell (addDependent s p e) p =
      some (if e ∈ ((lookupCell s p).getD emptyCell).dependencies
            then (lookupCell s p).getD emptyCell
            else { (lookupCell s p).getD emptyCell with
                   dependencies :=
                     ((lookupCell s p).getD emptyCell).dependencies ++ [e] }) := by
  unfold addDependent
  cases hl : lookupCell s p with
  | none =>
    simp only [hl, lookupCell_insert_self, Option.getD_some, Option.getD_none]
    rw [if_neg (by simp [emptyCell]), if_neg (by simp [emptyCell]), lookupCell_insert_self]
  | some c =>
    simp only [hl, Option.getD_some]
    by_cases he : e ∈ c.dependencies
    · rw [if_pos he, if_pos he, hl]
    · rw [if_neg he, if_neg he, lookupCell_insert_self]

theorem lookupCell_addDependent_ne (s : CellStore) (p e k : String) (h : k ≠ p) :
    lookupCell (addDependent s p e) k = lookupCell s k := by
  unfold addDependent
  cases hl : lookupCell s p with
  | none =>
    simp only [hl]
    split
    · rw [lookupCell_insert_ne _ _ _ _ h]
    · rw [lookupCell_insert_ne _ _ _ _ h, lookupCell_insert_ne _ _ _ _ h]
  | some c =>
    simp only [hl]
    split
    · rfl
    · rw [lookupCell_insert_ne _ _ _ _ h]

theorem depsOf_eq_getD (s : CellStore) (k : String) :
    depsOf s k = ((lookupCell s k).getD emptyCell).dependencies := by
  unfold depsOf
  cases lookupCell s k <;> rfl

theorem depsOf_addDependent_self (s : CellStore) (p e : String) :
    depsOf (addDependent s p e) p =
      if e ∈ depsOf s p then depsOf s p else depsOf s p ++ [e] := by
  rw [depsOf_eq_getD (addDependent s p e) p, lookupCell_addDependent_self,
    Option.getD_some, depsOf_eq_getD s p]
  by_cases he : e ∈ ((lookupCell s p).getD emptyCell).dependencies
  · rw [if_pos he, if_pos he]
  · rw [if_neg he, if_neg he]

theorem valView_addDependent (s : CellStore) (p e k : String) :
    valView (addDependent s p e) k = valView s k := by
  by_cases h : k = p
  · subst h
    unfold valView
    rw [lookupCell_addDependent_self, Option.getD_some]
    by_cases he : e ∈ ((lookupCell s k).getD emptyCell).dependencies
    · rw [if_pos he]
    · rw [if_neg he]
  · unfold valView
    rw [lookupCell_addDependent_ne _ _ _ _ h]

theorem formView_addDependent (s : CellStore) (p e k : String) :
    formView (addDependent s p e) k = formView s k := by
  by_cases h : k = p
  · subst h
    unfold formView
    rw [lookupCell_addDependent_self, Option.getD_some]
    by_cases he : e ∈ ((lookupCell s k).getD emptyCell).dependencies
    · rw [if_pos he]
    · rw [if_neg he]
  · unfold formView
    rw [lookupCell_addDependent_ne _ _ _ _ h]

theorem mem_depsOf_addDependent (s : CellStore) (p e x y : String) :
    y ∈ depsOf (addDependent s p e) x ↔ y ∈ depsOf s x ∨ (x = p ∧ y = e) := by
  by_cases h : x = p
  · subst h
    rw [depsOf_addDependent_self]
    by_cases he : e ∈ depsOf s x
    · rw [if_pos he]
      constructor
      · intro hy; exact Or.inl hy
      · rintro (hy | ⟨-, rfl⟩)
        · exact hy
        · exact he
    · rw [if_neg he]
      simp only [List.mem_append, List.mem_singleton]
      constructor
      · rintro (hy | rfl)
        · exact Or.inl hy
        · exact Or.inr (by simp)
      · rintro (hy | ⟨-, h2⟩)
        · exact Or.inl hy
        · exact Or.inr h2
  · rw [depsOf_eq_getD (addDependent s p e) x, lookupCell_addDependent_ne _ _ _ _ h,
      ← depsOf_eq_getD s x]
    simp [h]

theorem lookupCell_addDependent_isSome (s : CellStore) (p e k : String)
    (h : (lookupCell s k).isSome = true) :
    (lookupCell (addDependent s p e) k).isSome = true := by
  by_cases hk : k = p
  · subst hk
    rw [lookupCell_addDependent_self]
    rfl
  · rw [lookupCell_addDependent_ne _ _ _ _ hk]; exact h

theorem addEdges_nil (s : CellStore) (e : String) : addEdges s [] e = s := rfl

theorem addEdges_cons (s : CellStore) (p : String) (ps : List String) (e : String) :
    addEdges s (p :: ps) e = addEdges (addDependent s p e) ps e := rfl

theorem lookupCell_addEdges_ne (s : CellStore) (parents : List String) (e k : String)
    (h : k ∉ parents) :
    lookupCell (addEdges s parents e) k = lookupCell s k := by
  induction parents generalizing s with
  | nil => rfl
  | cons p ps ih =>
    rw [addEdges_cons]
    have h1 : k ∉ ps := fun hk => h (List.mem_cons_of_mem _ hk)
    have h2 : k ≠ p := fun hk => h (hk ▸ List.mem_cons_self _ _)
    rw [ih (addDependent s p e) h1, lookupCell_addDependent_ne _ _ _ _ h2]

theorem valView_addEdges (s : CellStore) (parents : List String) (e k : String) :
    valView (addEdges s parents e) k = valView s k := by
  induction parents generalizing s with
  | nil => rfl
  | cons p ps ih =>
    rw [addEdges_cons, ih (addDependent s p e), valView_addDependent]

theorem formView_addEdges (s : CellStore) (parents : List String) (e k : String) :
    formView (addEdges s parents e) k = formView s k := by
  induction parents generalizing s with
  | nil => rfl
  | cons p ps ih =>
    rw [addEdges_cons, ih (addDependent s p e), formView_addDependent]

theorem mem_depsOf_addEdges (s : CellStore) (parents : List String) (e x y : String) :
    y ∈ depsOf (addEdges s parents e) x ↔
      y ∈ depsOf s x ∨ (x ∈ parents ∧ y = e) := by
  induction parents generalizing s with
  | nil => simp [addEdges_nil]
  | cons p ps ih =>
    rw [addEdges_cons, ih (addDependent s p e), mem_depsOf_addDependent]
    constructor
    · rintro ((hy | ⟨rfl, rfl⟩) | ⟨hx, rfl⟩)
      · exact Or.inl hy
      · exact Or.inr ⟨List.mem_cons_self _ _, rfl⟩
      · exact Or.inr ⟨List.mem_cons_of_mem _ hx, rfl⟩
    · rintro (hy | ⟨hx, rfl⟩)
      · exact Or.inl (Or.inl hy)
      · rcases List.mem_cons.mp hx with rfl | hx
        · exact Or.inl (Or.inr ⟨rfl, rfl⟩)
        · exact Or.inr ⟨hx, rfl⟩

theorem lookupCell_addEdges_isSome (s : CellStore) (parents : List String) (e k : String)
    (h : (lookupCell s k).isSome = true) :
    (lookupCell (addEdges s parents e) k).isSome = true := by
  induction parents generalizing s with
  | nil => exact h
  | cons p ps ih =>
    rw [addEdges_cons]
    exact ih (addDependent s p e) (lookupCell_addDependent_isSome _ _ _ _ h)

end StoreLemmas


section ReachLemmas

theorem reaches_trans {s : CellStore} {x y z : String}
    (h1 : Reaches s x y) (h2 : Reaches s y z) : Reaches s x z := by
  induction h1 with
  | refl => exact h2
  | step he _ ih => exact Reaches.step he (ih h2)

theorem reaches_snoc {s : CellStore} {x y z : String}
    (h1 : Reaches s x y) (h2 : edgeTo s y z) : Reaches s x z :=
  reaches_trans h1 (Reaches.step h2 (Reaches.refl z))

theorem reaches_mono {s s' : CellStore}
    (hm : ∀ x y, edgeTo s x y → edgeTo s' x y) :
    ∀ {x y : String}, Reaches s x y → Reaches s' x y := by
  intro x y h
  induction h with
  | refl => exact Reaches.refl _
  | step he _ ih => exact Reaches.step (hm _ _ he) ih

theorem reaches_of_depsEq {s s' : CellStore}
    (hd : ∀ k, depsOf s k = depsOf s' k) :
    ∀ {x y : String}, Reaches s x y → Reaches s' x y :=
  reaches_mono (fun x y he => by unfold edgeTo at he ⊢; rw [← hd x]; exact he)

theorem acyclic_of_depsEq {s s' : CellStore}
    (hd : ∀ k, depsOf s k = depsOf s' k) (h : Acyclic s) : Acyclic s' := by
  intro x y he hr
  refine h x y ?_ (reaches_of_depsEq (fun k => (hd k).symm) hr)
  unfold edgeTo at he ⊢
  rw [hd x]
  exact he

end ReachLemmas

section HasCircLemmas

theorem hasCirc_zero (a b : String) (s : CellStore) : hasCirc 0 a b s = none := rfl

theorem hasCirc_succ (n : Nat) (a b : String) (s : CellStore) :
    hasCirc (n + 1) a b s =
      if a = b then some true
      else firstSomeTrue (fun d => hasCirc n d b s) (depsOf s a) := rfl

theorem firstSomeTrue_nil (f : String → Option Bool) :
    firstSomeTrue f [] = some false := rfl

theorem firstSomeTrue_cons (f : String → Option Bool) (d : String) (ds : List String) :
    firstSomeTrue f (d :: ds) =
      match f d with
      | none => none
      | some true => some true
      | some false => firstSomeTrue f ds := rfl

theorem firstSomeTrue_eq_true {f : String → Option Bool} {l : List String}
    (h : firstSomeTrue f l = some true) : ∃ d ∈ l, f d = some true := by
  induction l with
  | nil => cases h
  | cons d ds ih =>
    rw [firstSomeTrue_cons] at h
    cases hf : f d with
    | none => rw [hf] at h; cases h
    | some b =>
      cases b with
      | true => exact ⟨d, List.mem_cons_self _ _, hf⟩
      | false =>
        rw [hf] at h
        obtain ⟨d2, hd2, hfd2⟩ := ih h
        exact ⟨d2, List.mem_cons_of_mem _ hd2, hfd2⟩

theorem firstSomeTrue_eq_false {f : String → Option Bool} {l : List String}
    (h : firstSomeTrue f l = some false) : ∀ d ∈ l, f d = some false := by
  induction l with
  | nil => intro d hd; cases hd
  | cons d ds ih =>
    rw [firstSomeTrue_cons] at h
    intro d2 hd2
    cases hf : f d with
    | none => rw [hf] at h; cases h
    | some b =>
      cases b with
      | true => rw [hf] at h; cases h
      | false =>
        rw [hf] at h
        rcases List.mem_cons.mp hd2 with rfl | hd2
        · exact hf
        · exact ih h d2 hd2

theorem firstSomeTrue_isSome {f : String → Option Bool} {l : List String}
    (h : ∀ d ∈ l, (f d).isSome = true) : (firstSomeTrue f l).isSome = true := by
  induction l with
  | nil => rfl
  | cons d ds ih =>
    rw [firstSomeTrue_cons]
    cases hf : f d with
    | none =>
      have := h d (List.mem_cons_self _ _)
      rw [hf] at this
      cases this
    | some b =>
      cases b with
      | true => rfl
      | false => exact ih (fun d2 hd2 => h d2 (List.mem_cons_of_mem _ hd2))

theorem firstSomeTrue_mono {f g : String → Option Bool} {l : List String}
    (h : ∀ d ∈ l, ∀ r, f d = some r → g d = some r) :
    ∀ r, firstSomeTrue f l = some r → firstSomeTrue g l = some r := by
  induction l with
  | nil => intro r hr; exact hr
  | cons d ds ih =>
    intro r hr
    rw [firstSomeTrue_cons] at hr
    rw [firstSomeTrue_cons]
    cases hf : f d with
    | none => rw [hf] at hr; cases hr
    | some b =>
      rw [hf] at hr
      rw [h d (List.mem_cons_self _ _) b hf]
      cases b with
      | true => exact hr
      | false => exact ih (fun d2 hd2 => h d2 (List.mem_cons_of_mem _ hd2)) r hr

theorem hasCirc_some_true :
    ∀ {n : Nat} {a b : String} {s : CellStore},
      hasCirc n a b s = some true → Reaches s a b := by
  intro n
  induction n with
  | zero => intro a b s h; cases h
  | succ n ih =>
    intro a b s h
    rw [hasCirc_succ] at h
    by_cases hab : a = b
    · subst hab; exact Reaches.refl a
    · rw [if_neg hab] at h
      obtain ⟨d, hd, hfd⟩ := firstSomeTrue_eq_true h
      exact Reaches.step hd (ih hfd)

theorem hasCirc_some_false :
    ∀ {n : Nat} {a b : String} {s : CellStore},
      hasCirc n a b s = some false → ¬ Reaches s a b := by
  intro n
  induction n with
  | zero => intro a b s h; cases h
  | succ n ih =>
    intro a b s h hr
    rw [hasCirc_succ] at h
    by_cases hab : a = b
    · rw [if_pos hab] at h; cases h
    · rw [if_neg hab] at h
      cases hr with
      | refl => exact hab rfl
      | step he hr2 => exact ih (firstSomeTrue_eq_false h _ he) hr2

theorem hasCirc_mono {n : Nat} :
    ∀ {a b : String} {s : CellStore} {r : Bool},
      hasCirc n a b s = some r → hasCirc (n + 1) a b s = some r := by
  induction n with
  | zero => intro a b s r h; cases h
  | succ n ih =>
    intro a b s r h
    rw [hasCirc_succ] at h
    rw [hasCirc_succ]
    by_cases hab : a = b
    · rw [if_pos hab] at h; rw [if_pos hab]; exact h
    · rw [if_neg hab] at h
      rw [if_neg hab]
      exact firstSomeTrue_mono (fun d _ r2 h2 => ih h2) r h

theorem hasCirc_le {n m : Nat} (hnm : n ≤ m) :
    ∀ {a b : String} {s : CellStore} {r : Bool},
      hasCirc n a b s = some r → hasCirc m a b s = some r := by
  induction hnm with
  | refl => intro a b s r h; exact h
  | step _ ih => intro a b s r h; exact hasCirc_mono (ih h)

theorem checkParents_eq_true {fuel : Nat} {start : String} {s : CellStore}
    {l : List String} (h : checkParents fuel start s l = some true) :
    ∃ p ∈ l, Reaches s start p := by
  obtain ⟨p, hp, hcp⟩ := firstSomeTrue_eq_true h
  exact ⟨p, hp, hasCirc_some_true hcp⟩

theorem checkParents_eq_false {fuel : Nat} {start : String} {s : CellStore}
    {l : List String} (h : checkParents fuel start s l = some false) :
    ∀ p ∈ l, ¬ Reaches s start p := by
  intro p hp
  exact hasCirc_some_false (firstSomeTrue_eq_false h p hp)

theorem checkParents_mono {fuel : Nat} {start : String} {s : CellStore}
    {l : List String} {r : Bool} (h : checkParents fuel start s l = some r) :
    checkParents (fuel + 1) start s l = some r :=
  firstSomeTrue_mono (fun _ _ _ h2 => hasCirc_mono h2) r h

end HasCircLemmas

section EngineEquations

theorem updateFuel_zero (ev : String → Option Value) (e f : String) (S : CellStore) :
    updateFuel ev 0 e f S = none := rfl

theorem updateFuel_succ (ev : String → Option Value) (n : Nat) (e f : String)
    (S : CellStore) :
    updateFuel ev (n + 1) e f S =
      match checkParents (n + 1) e S (parentsOf f) with
      | none => none
      | some true =>
        some (insertCell S e ⟨Value.str "#CIRCULAR", f, depsOf S e⟩)
      | some false =>
        goChildren (updateFuel ev n)
          (depsOf (addEdges
            (insertCell S e ⟨calculateFormula ev f S, f, depsOf S e⟩)
            (parentsOf f) e) e)
          (addEdges (insertCell S e ⟨calculateFormula ev f S, f, depsOf S e⟩)
            (parentsOf f) e) := rfl

theorem goChildren_nil (rec' : String → String → CellStore → Option CellStore)
    (st : CellStore) : goChildren rec' [] st = some st := rfl

theorem goChildren_cons (rec' : String → String → CellStore → Option CellStore)
    (c : String) (cs : List String) (st : CellStore) :
    goChildren rec' (c :: cs) st =
      match lookupCell st c with
      | none => goChildren rec' cs st
      | some cd =>
        match rec' c cd.formula st with
        | none => none
        | some st' => goChildren rec' cs (mergeStores st st') := rfl

end EngineEquations

section KeysMono

theorem lookupCell_merge_isSome_right (a b : CellStore) (k : String)
    (h : (lookupCell b k).isSome = true) :
    (lookupCell (mergeStores a b) k).isSome = true := by
  cases hb : lookupCell b k with
  | none => rw [hb] at h; cases h
  | some c => simp [lookupCell_merge, hb]

theorem lookupCell_insert_isSome (s : CellStore) (k kt : String) (c : Cell)
    (h : (lookupCell s kt).isSome = true) :
    (lookupCell (insertCell s k c) kt).isSome = true := by
  by_cases hk : kt = k
  · subst hk; rw [lookupCell_insert_self]; rfl
  · rw [lookupCell_insert_ne _ _ _ _ hk]; exact h

theorem goChildren_keys_mono
    (rec' : String → String → CellStore → Option CellStore)
    (hrec : ∀ c f T T', rec' c f T = some T' →
      ∀ k, (lookupCell T k).isSome = true → (lookupCell T' k).isSome = true)
    (cs : List String) (S S' : CellStore) (h : goChildren rec' cs S = some S')
    (k : String) (hk : (lookupCell S k).isSome = true) :
    (lookupCell S' k).isSome = true := by
  induction cs generalizing S with
  | nil => rw [goChildren_nil] at h; cases h; exact hk
  | cons c cs ih =>
    rw [goChildren_cons] at h
    cases hl : lookupCell S c with
    | none => simp only [hl] at h; exact ih S h hk
    | some cd =>
      simp only [hl] at h
      cases hr : rec' c cd.formula S with
      | none => simp only [hr] at h; cases h
      | some T' =>
        simp only [hr] at h
        exact ih (mergeStores S T') h
          (lookupCell_merge_isSome_right _ _ _ (hrec c cd.formula S T' hr k hk))

theorem updateFuel_keys_mono :
    ∀ (n : Nat) (ev : String → Option Value) (e f : String) (S S' : CellStore),
      updateFuel ev n e f S = some S' →
      ∀ k, (lookupCell S k).isSome = true → (lookupCell S' k).isSome = true := by
  intro n
  induction n with
  | zero => intro ev e f S S' h; cases h
  | succ n ih =>
    intro ev e f S S' h k hk
    rw [updateFuel_succ] at h
    cases hc : checkParents (n + 1) e S (parentsOf f) with
    | none => simp only [hc] at h; cases h
    | some b =>
      cases b with
      | true =>
        simp only [hc] at h
        cases h
        exact lookupCell_insert_isSome _ _ _ _ hk
      | false =>
        simp only [hc] at h
        refine goChildren_keys_mono (updateFuel ev n)
          (fun c f2 T T' h2 => ih ev c f2 T T' h2) _ _ _ h k ?_
        exact lookupCell_addEdges_isSome _ _ _ _
          (lookupCell_insert_isSome _ _ _ _ hk)

theorem mergeStores_collapse (a b : CellStore)
    (h : ∀ k, (lookupCell a k).isSome = true → (lookupCell b k).isSome = true) :
    mergeStores a b = b := by
  unfold mergeStores
  have hf : a.filter (fun e => (lookupCell b e.1).isNone) = [] := by
    rw [List.filter_eq_nil_iff]
    intro e he
    have h1 : (lookupCell a e.1).isSome = true := by
      refine lookupCell_isSome_of_mem (k := e.1) (c := e.2) ?_
      simpa using he
    have h2 := h e.1 h1
    intro h3
    rw [Option.isNone_iff_eq_none] at h3
    rw [h3] at h2
    cases h2
  rw [hf, List.append_nil]

/-- When the recursive call only grows the key set, the right-biased merge
in the refresh loop collapses to the recursive result. -/
theorem goChildren_cons_merge
    (rec' : String → String → CellStore → Option CellStore)
    (c : String) (cs : List String) (st st' : CellStore) (cd : Cell)
    (hl : lookupCell st c = some cd) (hr : rec' c cd.formula st = some st')
    (hmono : ∀ k, (lookupCell st k).isSome = true →
      (lookupCell st' k).isSome = true) :
    goChildren rec' (c :: cs) st = goChildren rec' cs st' := by
  rw [goChildren_cons]
  simp only [hl, hr]
  rw [mergeStores_collapse st st' hmono]

end KeysMono


section DepsMono

theorem depsOf_insert_keep (S : CellStore) (e : String) (v : Value) (f : String) :
    ∀ x, depsOf (insertCell S e ⟨v, f, depsOf S e⟩) x = depsOf S x := by
  intro x
  rw [depsOf_insert]
  by_cases hx : x = e
  · subst hx; rw [if_pos rfl]
  · rw [if_neg hx]

theorem goChildren_deps_mono (ev : String → Option Value) (n : Nat)
    (hn : ∀ e f S S', updateFuel ev n e f S = some S' →
      ∀ c x, x ∈ depsOf S c → x ∈ depsOf S' c) :
    ∀ (cs : List String) (T T' : CellStore),
      goChildren (updateFuel ev n) cs T = some T' →
      ∀ c x, x ∈ depsOf T c → x ∈ depsOf T' c := by
  intro cs
  induction cs with
  | nil => intro T T' h c x hx; rw [goChildren_nil] at h; cases h; exact hx
  | cons c0 cs ih =>
    intro T T' h c x hx
    rw [goChildren_cons] at h
    cases hl : lookupCell T c0 with
    | none => simp only [hl] at h; exact ih T T' h c x hx
    | some cd =>
      simp only [hl] at h
      cases hr : updateFuel ev n c0 cd.formula T with
      | none => simp only [hr] at h; cases h
      | some T1 =>
        simp only [hr] at h
        rw [mergeStores_collapse T T1
          (fun k hk => updateFuel_keys_mono n ev _ _ _ _ hr k hk)] at h
        exact ih T1 T' h c x (hn _ _ _ _ hr c x hx)

theorem updateFuel_deps_mono :
    ∀ (n : Nat) (ev : String → Option Value) (e f : String) (S S' : CellStore),
      updateFuel ev n e f S = some S' →
      ∀ c x, x ∈ depsOf S c → x ∈ depsOf S' c := by
  intro n
  induction n with
  | zero => intro ev e f S S' h; cases h
  | succ n ih =>
    intro ev e f S S' h c x hx
    rw [updateFuel_succ] at h
    cases hc : checkParents (n + 1) e S (parentsOf f) with
    | none => simp only [hc] at h; cases h
    | some b =>
      cases b with
      | true =>
        simp only [hc] at h
        cases h
        rw [depsOf_insert_keep]
        exact hx
      | false =>
        simp only [hc] at h
        refine goChildren_deps_mono ev n (fun e2 f2 S2 S2' h2 => ih ev e2 f2 S2 S2' h2)
          _ _ _ h c x ?_
        rw [mem_depsOf_addEdges]
        left
        rw [depsOf_insert_keep]
        exact hx

/-- Edges never change except through additions, so reachability in any
store passed along the refresh is preserved into the final one. -/
theorem updateFuel_reaches_mono {n : Nat} {ev : String → Option Value}
    {e f : String} {S S' : CellStore} (h : updateFuel ev n e f S = some S') :
    ∀ {x y : String}, Reaches S x y → Reaches S' x y :=
  reaches_mono (fun x y he => updateFuel_deps_mono n ev e f S S' h x y he)

theorem goChildren_deps_mono_of (ev : String → Option Value) (n : Nat) :
    ∀ (cs : List String) (T T' : CellStore),
      goChildren (updateFuel ev n) cs T = some T' →
      ∀ c x, x ∈ depsOf T c → x ∈ depsOf T' c :=
  goChildren_deps_mono ev n (fun e f S S' h => updateFuel_deps_mono n ev e f S S' h)

end DepsMono

section FormStable

theorem goChildren_form_stable (ev : String → Option Value) (n : Nat)
    (hn : ∀ e f S S', updateFuel ev n e f S = some S' →
      ∀ x, formView S' x = if x = e then f else formView S x) :
    ∀ (cs : List String) (T T' : CellStore),
      goChildren (updateFuel ev n) cs T = some T' →
      ∀ x, formView T' x = formView T x := by
  intro cs
  induction cs with
  | nil => intro T T' h x; rw [goChildren_nil] at h; cases h; rfl
  | cons c0 cs ih =>
    intro T T' h x
    rw [goChildren_cons] at h
    cases hl : lookupCell T c0 with
    | none => simp only [hl] at h; exact ih T T' h x
    | some cd =>
      simp only [hl] at h
      cases hr : updateFuel ev n c0 cd.formula T with
      | none => simp only [hr] at h; cases h
      | some T1 =>
        simp only [hr] at h
        rw [mergeStores_collapse T T1
          (fun k hk => updateFuel_keys_mono n ev _ _ _ _ hr k hk)] at h
        have hform : ∀ z, formView T1 z = formView T z := by
          intro z
          rw [hn c0 cd.formula T T1 hr z]
          by_cases hz : z = c0
          · subst hz
            rw [if_pos rfl]
            unfold formView
            rw [hl]
            rfl
          · rw [if_neg hz]
        rw [ih T1 T' h x, hform x]

/-- The formula written at the edited cell is the new formula; every other
formula, and every formula written by the recursive refresh, is unchanged. -/
theorem updateFuel_form :
    ∀ (n : Nat) (ev : String → Option Value) (e f : String) (S S' : CellStore),
      updateFuel ev n e f S = some S' →
      ∀ x, formView S' x = if x = e then f else formView S x := by
  intro n
  induction n with
  | zero => intro ev e f S S' h; cases h
  | succ n ih =>
    intro ev e f S S' h x
    rw [updateFuel_succ] at h
    cases hc : checkParents (n + 1) e S (parentsOf f) with
    | none => simp only [hc] at h; cases h
    | some b =>
      cases b with
      | true =>
        simp only [hc] at h
        cases h
        rw [formView_insert]
      | false =>
        simp only [hc] at h
        rw [goChildren_form_stable ev n (fun e2 f2 S2 S2' h2 => ih ev e2 f2 S2 S2' h2)
          _ _ _ h x, formView_addEdges, formView_insert]

end FormStable

section AcyclicPreserved

theorem addEdges_reaches_decomp {S : CellStore} {parents : List String} {e : String} :
    ∀ {a q : String}, Reaches (addEdges S parents e) a q →
      Reaches S a q ∨
        ∃ p ∈ parents, Reaches S a p ∧ Reaches (addEdges S parents e) e q := by
  intro a q h
  induction h with
  | refl => exact Or.inl (Reaches.refl _)
  | step he hrest ih =>
    rcases (mem_depsOf_addEdges S parents e _ _).mp he with hold | ⟨hx, rfl⟩
    · rcases ih with h1 | ⟨p, hp, h2, h3⟩
      · exact Or.inl (Reaches.step hold h1)
      · exact Or.inr ⟨p, hp, Reaches.step hold h2, h3⟩
    · exact Or.inr ⟨_, hx, Reaches.refl _, hrest⟩

theorem addEdges_reaches_from_e {S : CellStore} {parents : List String} {e : String}
    (hguard : ∀ p ∈ parents, ¬ Reaches S e p) :
    ∀ {q : String}, Reaches (addEdges S parents e) e q → Reaches S e q := by
  intro q h
  rcases addEdges_reaches_decomp h with h1 | ⟨p, hp, h2, h3⟩
  · exact h1
  · exact absurd h2 (hguard p hp)

/-- Inserting the guarded back edges cannot close a cycle: a simple cycle
could use at most one new edge, whose source the edited cell provably does
not reach. -/
theorem addEdges_acyclic {S : CellStore} {parents : List String} {e : String}
    (hA : Acyclic S) (hguard : ∀ p ∈ parents, ¬ Reaches S e p) :
    Acyclic (addEdges S parents e) := by
  intro x y he hr
  rcases (mem_depsOf_addEdges S parents e x y).mp he with hold | ⟨hx, rfl⟩
  · rcases addEdges_reaches_decomp hr with h1 | ⟨p, hp, h2, h3⟩
    · exact hA x y hold h1
    · have h4 : Reaches S e x := addEdges_reaches_from_e hguard h3
      have h5 : Reaches S e y := reaches_snoc h4 hold
      exact hguard p hp (reaches_trans h5 h2)
  · exact hguard x hx (addEdges_reaches_from_e hguard hr)

theorem goChildren_acyclic (ev : String → Option Value) (n : Nat)
    (hn : ∀ e f S S', Acyclic S → updateFuel ev n e f S = some S' → Acyclic S') :
    ∀ (cs : List String) (T T' : CellStore), Acyclic T →
      goChildren (updateFuel ev n) cs T = some T' → Acyclic T' := by
  intro cs
  induction cs with
  | nil => intro T T' hA h; rw [goChildren_nil] at h; cases h; exact hA
  | cons c0 cs ih =>
    intro T T' hA h
    rw [goChildren_cons] at h
    cases hl : lookupCell T c0 with
    | none => simp only [hl] at h; exact ih T T' hA h
    | some cd =>
      simp only [hl] at h
      cases hr : updateFuel ev n c0 cd.formula T with
      | none => simp only [hr] at h; cases h
      | some T1 =>
        simp only [hr] at h
        rw [mergeStores_collapse T T1
          (fun k hk => updateFuel_keys_mono n ev _ _ _ _ hr k hk)] at h
        exact ih T1 T' (hn _ _ _ _ hA hr) h

/-- Committing an edit preserves acyclicity of the dependents graph: the
rejection path leaves the graph untouched, and every accepted edge insertion
(at the top level and inside the recursive refresh) is guarded by the
depth-first cycle check. -/
theorem updateFuel_acyclic :
    ∀ (n : Nat) (ev : String → Option Value) (e f : String) (S S' : CellStore),
      Acyclic S → updateFuel ev n e f S = some S' → Acyclic S' := by
  intro n
  induction n with
  | zero => intro ev e f S S' _ h; cases h
  | succ n ih =>
    intro ev e f S S' hA h
    rw [updateFuel_succ] at h
    cases hc : checkParents (n + 1) e S (parentsOf f) with
    | none => simp only [hc] at h; cases h
    | some b =>
      cases b with
      | true =>
        simp only [hc] at h
        cases h
        exact acyclic_of_depsEq (fun k => (depsOf_insert_keep S e _ f k).symm) hA
      | false =>
        simp only [hc] at h
        have hguardS : ∀ p ∈ parentsOf f, ¬ Reaches S e p :=
          checkParents_eq_false hc
        have hdeq : ∀ k,
            depsOf S k =
              depsOf (insertCell S e ⟨calculateFormula ev f S, f, depsOf S e⟩) k :=
          fun k => (depsOf_insert_keep S e _ f k).symm
        have hA1 : Acyclic (insertCell S e ⟨calculateFormula ev f S, f, depsOf S e⟩) :=
          acyclic_of_depsEq hdeq hA
        have hguard1 : ∀ p ∈ parentsOf f,
            ¬ Reaches (insertCell S e ⟨calculateFormula ev f S, f, depsOf S e⟩) e p :=
          fun p hp hr =>
            hguardS p hp (reaches_of_depsEq (fun k => (hdeq k).symm) hr)
        have hA2 : Acyclic (addEdges
            (insertCell S e ⟨calculateFormula ev f S, f, depsOf S e⟩)
            (parentsOf f) e) :=
          addEdges_acyclic hA1 hguard1
        exact goChildren_acyclic ev n
          (fun e2 f2 S2 S2' hA2' h2 => ih ev e2 f2 S2 S2' hA2' h2) _ _ _ hA2 h

end AcyclicPreserved

section ValueLocal

theorem goChildren_val_local (ev : String → Option Value) (n : Nat)
    (hn : ∀ e f S S', updateFuel ev n e f S = some S' →
      ∀ x, valView S' x = valView S x ∨ Reaches S' e x) :
    ∀ (cs : List String) (T T' : CellStore),
      goChildren (updateFuel ev n) cs T = some T' →
      ∀ x, valView T' x = valView T x ∨ ∃ c ∈ cs, Reaches T' c x := by
  intro cs
  induction cs with
  | nil => intro T T' h x; rw [goChildren_nil] at h; cases h; exact Or.inl rfl
  | cons c0 cs ih =>
    intro T T' h x
    rw [goChildren_cons] at h
    cases hl : lookupCell T c0 with
    | none =>
      simp only [hl] at h
      rcases ih T T' h x with h1 | ⟨c, hc, h2⟩
      · exact Or.inl h1
      · exact Or.inr ⟨c, List.mem_cons_of_mem _ hc, h2⟩
    | some cd =>
      simp only [hl] at h
      cases hr : updateFuel ev n c0 cd.formula T with
      | none => simp only [hr] at h; cases h
      | some T1 =>
        simp only [hr] at h
        rw [mergeStores_collapse T T1
          (fun k hk => updateFuel_keys_mono n ev _ _ _ _ hr k hk)] at h
        rcases ih T1 T' h x with h1 | ⟨c, hc, h2⟩
        · rcases hn c0 cd.formula T T1 hr x with h2 | h2
          · exact Or.inl (h1.trans h2)
          · refine Or.inr ⟨c0, List.mem_cons_self _ _, ?_⟩
            exact reaches_mono
              (fun a b hab => goChildren_deps_mono_of ev n cs T1 T' h a b hab) h2
        · exact Or.inr ⟨c, List.mem_cons_of_mem _ hc, h2⟩

/-- A committed edit changes displayed values only at the edited cell and at
cells reachable from it along dependents edges of the result. -/
theorem updateFuel_val_local :
    ∀ (n : Nat) (ev : String → Option Value) (e f : String) (S S' : CellStore),
      updateFuel ev n e f S = some S' →
      ∀ x, valView S' x = valView S x ∨ Reaches S' e x := by
  intro n
  induction n with
  | zero => intro ev e f S S' h; cases h
  | succ n ih =>
    intro ev e f S S' h x
    rw [updateFuel_succ] at h
    cases hc : checkParents (n + 1) e S (parentsOf f) with
    | none => simp only [hc] at h; cases h
    | some b =>
      cases b with
      | true =>
        simp only [hc] at h
        cases h
        by_cases hx : x = e
        · subst hx; exact Or.inr (Reaches.refl x)
        · rw [valView_insert]
          rw [if_neg hx]
          exact Or.inl rfl
      | false =>
        simp only [hc] at h
        rcases goChildren_val_local ev n
            (fun e2 f2 S2 S2' h2 => ih ev e2 f2 S2 S2' h2) _ _ _ h x with h1 | ⟨c, hc2, h2⟩
        · by_cases hx : x = e
          · subst hx; exact Or.inr (Reaches.refl x)
          · rw [valView_addEdges, valView_insert, if_neg hx] at h1
            exact Or.inl h1
        · refine Or.inr (Reaches.step ?_ h2)
          show c ∈ depsOf S' e
          exact goChildren_deps_mono_of ev n _ _ _ h e c hc2

end ValueLocal


section TopValue

theorem checkParents_nil (fuel : Nat) (start : String) (s : CellStore) :
    checkParents fuel start s [] = some false := rfl

theorem parentsOf_not_formula {f : String} (h : startsWithEq f = false) :
    parentsOf f = [] := by
  unfold parentsOf
  rw [h]
  rfl

theorem calculateFormula_not_formula (ev : String → Option Value) {f : String}
    (h : startsWithEq f = false) (S : CellStore) :
    calculateFormula ev f S = Value.str f := by
  unfold calculateFormula
  rw [h]
  rfl

/-- While every child refreshed is a dependent of `e` in an acyclic store,
the refresh never rewrites `e`'s value. -/
theorem goChildren_val_frame (ev : String → Option Value) (n : Nat) (e : String) :
    ∀ (cs : List String) (T T' : CellStore), Acyclic T →
      goChildren (updateFuel ev n) cs T = some T' →
      (∀ c ∈ cs, edgeTo T e c) →
      valView T' e = valView T e := by
  intro cs
  induction cs with
  | nil => intro T T' _ h _; rw [goChildren_nil] at h; cases h; rfl
  | cons c0 cs ih =>
    intro T T' hA h hcs
    rw [goChildren_cons] at h
    cases hl : lookupCell T c0 with
    | none =>
      simp only [hl] at h
      exact ih T T' hA h (fun c hc => hcs c (List.mem_cons_of_mem _ hc))
    | some cd =>
      simp only [hl] at h
      cases hr : updateFuel ev n c0 cd.formula T with
      | none => simp only [hr] at h; cases h
      | some T1 =>
        simp only [hr] at h
        rw [mergeStores_collapse T T1
          (fun k hk => updateFuel_keys_mono n ev _ _ _ _ hr k hk)] at h
        have hA1 : Acyclic T1 := updateFuel_acyclic n ev _ _ _ _ hA hr
        have hedge1 : ∀ c ∈ c0 :: cs, edgeTo T1 e c := by
          intro c hc
          exact updateFuel_deps_mono n ev _ _ _ _ hr e c (hcs c hc)
        have hval : valView T1 e = valView T e := by
          rcases updateFuel_val_local n ev _ _ _ _ hr e with h1 | h1
          · exact h1
          · exact absurd h1
              (fun h2 => hA1 e c0 (hedge1 c0 (List.mem_cons_self _ _)) h2)
        rw [ih T1 T' hA1 h (fun c hc => hedge1 c (List.mem_cons_of_mem _ hc)), hval]

/-- The accepted path of a committed edit leaves at the edited cell exactly
the value that the evaluator adapter computed over the input store, and the
new formula. -/
theorem updateFuel_top {n : Nat} {ev : String → Option Value} {e f : String}
    {S S' : CellStore} (hA : Acyclic S) (h : updateFuel ev n e f S = some S')
    (hguard : ∀ p ∈ parentsOf f, ¬ Reaches S e p) :
    valView S' e = calculateFormula ev f S ∧
      (lookupCell S' e).isSome = true ∧ formView S' e = f := by
  have hform : formView S' e = f := by
    rw [updateFuel_form n ev e f S S' h e, if_pos rfl]
  cases n with
  | zero => cases h
  | succ n =>
    have h0 := h
    rw [updateFuel_succ] at h
    cases hc : checkParents (n + 1) e S (parentsOf f) with
    | none => simp only [hc] at h; cases h
    | some b =>
      cases b with
      | true =>
        obtain ⟨p, hp, hr⟩ := checkParents_eq_true hc
        exact absurd hr (hguard p hp)
      | false =>
        simp only [hc] at h
        have hdeq : ∀ k,
            depsOf S k =
              depsOf (insertCell S e ⟨calculateFormula ev f S, f, depsOf S e⟩) k :=
          fun k => (depsOf_insert_keep S e _ f k).symm
        have hA2 : Acyclic (addEdges
            (insertCell S e ⟨calculateFormula ev f S, f, depsOf S e⟩)
            (parentsOf f) e) :=
          addEdges_acyclic (acyclic_of_depsEq hdeq hA)
            (fun p hp hr =>
              hguard p hp (reaches_of_depsEq (fun k => (hdeq k).symm) hr))
        have hval : valView S' e = calculateFormula ev f S := by
          rw [goChildren_val_frame ev n e _ _ _ hA2 h (fun c hc => hc),
            valView_addEdges, valView_insert, if_pos rfl]
        refine ⟨hval, ?_, hform⟩
        refine goChildren_keys_mono (updateFuel ev n)
          (fun c f2 T T' h2 => updateFuel_keys_mono n ev c f2 T T' h2) _ _ _ h e ?_
        exact lookupCell_addEdges_isSome _ _ _ _
          (by rw [lookupCell_insert_self]; rfl)

end TopValue

section RefsInvPreserved

theorem goChildren_refsInv (ev : String → Option Value) (n : Nat)
    (hn : ∀ e f S S', updateFuel ev n e f S = some S' → RefsInv S →
      ((∃ p ∈ parentsOf f, Reaches S e p) → f = formView S e) → RefsInv S') :
    ∀ (cs : List String) (T T' : CellStore),
      goChildren (updateFuel ev n) cs T = some T' → RefsInv T → RefsInv T' := by
  intro cs
  induction cs with
  | nil => intro T T' h hI; rw [goChildren_nil] at h; cases h; exact hI
  | cons c0 cs ih =>
    intro T T' h hI
    rw [goChildren_cons] at h
    cases hl : lookupCell T c0 with
    | none => simp only [hl] at h; exact ih T T' h hI
    | some cd =>
      simp only [hl] at h
      cases hr : updateFuel ev n c0 cd.formula T with
      | none => simp only [hr] at h; cases h
      | some T1 =>
        simp only [hr] at h
        rw [mergeStores_collapse T T1
          (fun k hk => updateFuel_keys_mono n ev _ _ _ _ hr k hk)] at h
        refine ih T1 T' h (hn _ _ _ _ hr hI (fun _ => ?_))
        unfold formView
        rw [hl]
        rfl

/-- The back-edge invariant is preserved by a committed edit as long as the
edit is either accepted by the cycle check or repeats the stored formula
(which every recursive refresh call does). -/
theorem updateFuel_refsInv :
    ∀ (n : Nat) (ev : String → Option Value) (e f : String) (S S' : CellStore),
      updateFuel ev n e f S = some S' → RefsInv S →
      ((∃ p ∈ parentsOf f, Reaches S e p) → f = formView S e) → RefsInv S' := by
  intro n
  induction n with
  | zero => intro ev e f S S' h; cases h
  | succ n ih =>
    intro ev e f S S' h hI hcond
    rw [updateFuel_succ] at h
    cases hc : checkParents (n + 1) e S (parentsOf f) with
    | none => simp only [hc] at h; cases h
    | some b =>
      cases b with
      | true =>
        simp only [hc] at h
        cases h
        have hf : f = formView S e := hcond (checkParents_eq_true hc)
        intro X cX Y hX hY
        rw [depsOf_insert_keep]
        by_cases hXe : X = e
        · subst hXe
          rw [lookupCell_insert_self] at hX
          cases hX
          cases hSe : lookupCell S X with
          | none =>
            have hSX0 : formView S X = "" := by unfold formView; rw [hSe]; rfl
            rw [hf, hSX0,
              parentsOf_not_formula (show startsWithEq "" = false from rfl)] at hY
            cases hY
          | some cOld =>
            have hfo : cOld.formula = f := by
              rw [hf]
              unfold formView
              rw [hSe]
              rfl
            exact hI X cOld Y hSe (by rw [hfo]; exact hY)
        · rw [lookupCell_insert_ne _ _ _ _ hXe] at hX
          exact hI X cX Y hX hY
      | false =>
        simp only [hc] at h
        have hguard : ∀ p ∈ parentsOf f, ¬ Reaches S e p :=
          checkParents_eq_false hc
        have hne : e ∉ parentsOf f := fun hp => hguard e hp (Reaches.refl e)
        have hI2 : RefsInv (addEdges
            (insertCell S e ⟨calculateFormula ev f S, f, depsOf S e⟩)
            (parentsOf f) e) := by
          intro X cX Y hX hY
          rw [mem_depsOf_addEdges]
          by_cases hXe : X = e
          · subst hXe
            rw [lookupCell_addEdges_ne _ _ _ _ hne, lookupCell_insert_self] at hX
            cases hX
            right
            exact ⟨hY, rfl⟩
          · have hXform : cX.formula = formView S X := by
              have h1 : formView (addEdges
                  (insertCell S e ⟨calculateFormula ev f S, f, depsOf S e⟩)
                  (parentsOf f) e) X = cX.formula := by
                unfold formView
                rw [hX]
                rfl
              rw [← h1, formView_addEdges, formView_insert, if_neg hXe]
            cases hSX : lookupCell S X with
            | none =>
              have hSX0 : formView S X = "" := by unfold formView; rw [hSX]; rfl
              rw [hXform, hSX0,
                parentsOf_not_formula (show startsWithEq "" = false from rfl)] at hY
              cases hY
            | some cOld =>
              have hfo : cOld.formula = cX.formula := by
                rw [hXform]
                unfold formView
                rw [hSX]
                rfl
              left
              rw [depsOf_insert_keep]
              exact hI X cOld Y hSX (by rw [hfo]; exact hY)
        exact goChildren_refsInv ev n
          (fun e2 f2 S2 S2' h2 hI3 hc3 => ih ev e2 f2 S2 S2' h2 hI3 hc3)
          _ _ _ h hI2

end RefsInvPreserved

section NodupPreserved

/-- Every dependents list is duplicate-free. -/
def NodupDeps (S : CellStore) : Prop := ∀ c, (depsOf S c).Nodup

theorem nodupDeps_insert_keep {S : CellStore} {e : String} {v : Value} {f : String}
    (h : NodupDeps S) : NodupDeps (insertCell S e ⟨v, f, depsOf S e⟩) := by
  intro c
  rw [depsOf_insert_keep]
  exact h c

theorem nodupDeps_addDependent {S : CellStore} {p e : String}
    (h : NodupDeps S) : NodupDeps (addDependent S p e) := by
  intro c
  by_cases hc : c = p
  · subst hc
    rw [depsOf_addDependent_self]
    by_cases he : e ∈ depsOf S c
    · rw [if_pos he]; exact h c
    · rw [if_neg he]
      rw [List.nodup_append]
      exact ⟨h c, List.nodup_singleton e, by simpa using he⟩
  · unfold depsOf
    rw [lookupCell_addDependent_ne _ _ _ _ hc]
    exact h c

theorem nodupDeps_addEdges {S : CellStore} {parents : List String} {e : String}
    (h : NodupDeps S) : NodupDeps (addEdges S parents e) := by
  induction parents generalizing S with
  | nil => exact h
  | cons p ps ih =>
    rw [addEdges_cons]
    exact ih (nodupDeps_addDependent h)

theorem goChildren_nodupDeps (ev : String → Option Value) (n : Nat)
    (hn : ∀ e f S S', updateFuel ev n e f S = some S' → NodupDeps S → NodupDeps S') :
    ∀ (cs : List String) (T T' : CellStore),
      goChildren (updateFuel ev n) cs T = some T' → NodupDeps T → NodupDeps T' := by
  intro cs
  induction cs with
  | nil => intro T T' h hN; rw [goChildren_nil] at h; cases h; exact hN
  | cons c0 cs ih =>
    intro T T' h hN
    rw [goChildren_cons] at h
    cases hl : lookupCell T c0 with
    | none => simp only [hl] at h; exact ih T T' h hN
    | some cd =>
      simp only [hl] at h
      cases hr : updateFuel ev n c0 cd.formula T with
      | none => simp only [hr] at h; cases h
      | some T1 =>
        simp only [hr] at h
        rw [mergeStores_collapse T T1
          (fun k hk => updateFuel_keys_mono n ev _ _ _ _ hr k hk)] at h
        exact ih T1 T' h (hn _ _ _ _ hr hN)

/-- Edge insertion is idempotent: committing never duplicates an entry in a
dependents list. -/
theorem updateFuel_nodupDeps :
    ∀ (n : Nat) (ev : String → Option Value) (e f : String) (S S' : CellStore),
      updateFuel ev n e f S = some S' → NodupDeps S → NodupDeps S' := by
  intro n
  induction n with
  | zero => intro ev e f S S' h; cases h
  | succ n ih =>
    intro ev e f S S' h hN
    rw [updateFuel_succ] at h
    cases hc : checkParents (n + 1) e S (parentsOf f) with
    | none => simp only [hc] at h; cases h
    | some b =>
      cases b with
      | true =>
        simp only [hc] at h
        cases h
        exact nodupDeps_insert_keep hN
      | false =>
        simp only [hc] at h
        exact goChildren_nodupDeps ev n
          (fun e2 f2 S2 S2' h2 hN2 => ih ev e2 f2 S2 S2' h2 hN2) _ _ _ h
          (nodupDeps_addEdges (nodupDeps_insert_keep hN))

end NodupPreserved

section Poisoning

theorem substLoop_cons (ev : String → Option Value) (r : String) (rs : List String)
    (expr : List Char) (s : CellStore) :
    substLoop ev (r :: rs) expr s =
      if errTagB (jsOr0 ((lookupCell s r).map (fun c => c.value))) then
        Value.str "#ERROR"
      else
        substLoop ev rs
          (replFirst expr r.data
            (valueToString (jsOr0 ((lookupCell s r).map (fun c => c.value)))).data) s :=
  rfl

/-- The reference substitution loop short-circuits to "#ERROR" the moment
any referenced cell carries an error tag, regardless of the expression state
and of the external evaluator. -/
theorem substLoop_err (ev : String → Option Value) (rs : List String)
    (S : CellStore)
    (h : ∃ r ∈ rs, errTagB (jsOr0 ((lookupCell S r).map (fun c => c.value))) = true) :
    ∀ expr, substLoop ev rs expr S = Value.str "#ERROR" := by
  induction rs with
  | nil => obtain ⟨r, hr, _⟩ := h; cases hr
  | cons r0 rs ih =>
    intro expr
    rw [substLoop_cons]
    by_cases h0 : errTagB (jsOr0 ((lookupCell S r0).map (fun c => c.value))) = true
    · rw [if_pos h0]
    · rw [if_neg h0]
      obtain ⟨r, hr, herr⟩ := h
      rcases List.mem_cons.mp hr with rfl | hr2
      · exact absurd herr h0
      · exact ih ⟨r, hr2, herr⟩ _

/-- The references read by `calculateFormula` for a formula string. -/
def exprRefs (f : String) : List String := extractAux ((upperStr f).data.drop 1)

theorem calculateFormula_eq_substLoop (ev : String → Option Value) {f : String}
    (hf : startsWithEq f = true) (S : CellStore) :
    calculateFormula ev f S =
      substLoop ev (exprRefs f) ((upperStr f).data.drop 1) S := by
  unfold calculateFormula
  rw [hf]
  rfl

theorem errTagB_jsOr0_of_tag {v : Value}
    (h : v = Value.str "#ERROR" ∨ v = Value.str "#CIRCULAR") :
    errTagB (jsOr0 (some v)) = true := by
  rcases h with rfl | rfl <;> decide

/-- Poisoning: a formula that references a cell currently carrying an error
tag resolves to "#ERROR" for every external evaluator (in particular without
consulting it). -/
theorem calculateFormula_poisoned (ev : String → Option Value) {f : String}
    (hf : startsWithEq f = true) (S : CellStore)
    (h : ∃ r ∈ exprRefs f, ∃ c, lookupCell S r = some c ∧
      (c.value = Value.str "#ERROR" ∨ c.value = Value.str "#CIRCULAR")) :
    calculateFormula ev f S = Value.str "#ERROR" := by
  rw [calculateFormula_eq_substLoop ev hf]
  refine substLoop_err ev _ _ ?_ _
  obtain ⟨r, hr, c, hc, htag⟩ := h
  refine ⟨r, hr, ?_⟩
  rw [hc]
  exact errTagB_jsOr0_of_tag htag

end Poisoning

section CircPath

/-- The rejection path: when some extracted reference closes a cycle, the
commit returns the input store with just the edited cell replaced by the
"#CIRCULAR"-tagged cell that keeps its dependents. -/
theorem updateFuel_circ {n : Nat} {ev : String → Option Value} {e f : String}
    {S S' : CellStore} (h : updateFuel ev n e f S = some S')
    (hcyc : ∃ p ∈ parentsOf f, Reaches S e p) :
    S' = insertCell S e ⟨Value.str "#CIRCULAR", f, depsOf S e⟩ := by
  cases n with
  | zero => cases h
  | succ n =>
    rw [updateFuel_succ] at h
    cases hc : checkParents (n + 1) e S (parentsOf f) with
    | none => simp only [hc] at h; cases h
    | some b =>
      cases b with
      | true => simp only [hc] at h; cases h; rfl
      | false =>
        obtain ⟨p, hp, hr⟩ := hcyc
        exact absurd hr (checkParents_eq_false hc p hp)

end CircPath


section SmallHelpers

theorem reaches_cases {s : CellStore} {x y : String} (h : Reaches s x y) :
    x = y ∨ ∃ z, edgeTo s x z ∧ Reaches s z y := by
  cases h with
  | refl => exact Or.inl rfl
  | step he hr => exact Or.inr ⟨_, he, hr⟩

theorem acyclic_of_no_deps {s : CellStore} (h : ∀ x, depsOf s x = []) :
    Acyclic s := by
  intro x y he _
  unfold edgeTo at he
  rw [h x] at he
  cases he

theorem reaches_eq_of_no_deps {s : CellStore} (h : ∀ x, depsOf s x = [])
    {a b : String} (hr : Reaches s a b) : a = b := by
  cases hr with
  | refl => rfl
  | step he _ =>
    unfold edgeTo at he
    rw [h a] at he
    cases he

theorem depsOf_eq_nil_of_entries {s : CellStore}
    (h : ∀ e ∈ s, e.2.dependencies = []) (x : String) : depsOf s x = [] := by
  unfold depsOf lookupCell
  cases hf : List.find? (fun e => e.1 == x) s with
  | none => rfl
  | some e =>
    show e.2.dependencies = []
    exact h e (List.mem_of_find?_eq_some hf)

theorem refsInv_empty : RefsInv ([] : CellStore) := by
  intro X cX Y hX
  have h0 : lookupCell [] X = none := rfl
  rw [h0] at hX
  cases hX

theorem acyclic_empty : Acyclic ([] : CellStore) :=
  acyclic_of_no_deps (fun _ => rfl)

theorem runEdits_cons (ev : String → Option Value) (n : Nat) (e f : String)
    (rest : List (Nat × String × String)) (s : CellStore) :
    runEdits ev ((n, e, f) :: rest) s =
      match updateFuel ev n e f s with
      | none => none
      | some s2 => runEdits ev rest s2 := rfl

theorem runEdits_acyclic (ev : String → Option Value) :
    ∀ (edits : List (Nat × String × String)) (S0 S : CellStore),
      Acyclic S0 → runEdits ev edits S0 = some S → Acyclic S := by
  intro edits
  induction edits with
  | nil => intro S0 S hA h; cases h; exact hA
  | cons ed rest ih =>
    intro S0 S hA h
    obtain ⟨n, e, f⟩ := ed
    rw [runEdits_cons] at h
    cases hu : updateFuel ev n e f S0 with
    | none => simp only [hu] at h; cases h
    | some S1 =>
      simp only [hu] at h
      exact ih S1 S (updateFuel_acyclic n ev e f S0 S1 hA hu) h

theorem lookupCell_addEdges_mem_isSome (s : CellStore) (parents : List String)
    (e p : String) (hp : p ∈ parents) :
    (lookupCell (addEdges s parents e) p).isSome = true := by
  induction parents generalizing s with
  | nil => cases hp
  | cons q ps ih =>
    rw [addEdges_cons]
    rcases List.mem_cons.mp hp with rfl | hp2
    · by_cases hmem : p ∈ ps
      · exact ih (addDependent s p e) hmem
      · rw [lookupCell_addEdges_ne _ _ _ _ hmem, lookupCell_addDependent_self]
        rfl
    · exact ih (addDependent s q e) hp2

end SmallHelpers

section LitStable

theorem goChildren_lit_stable (ev : String → Option Value) (n : Nat)
    (w t : String)
    (hn : ∀ c T T', updateFuel ev n c (formView T c) T = some T' →
      valView T w = Value.str t → formView T w = t → valView T' w = Value.str t) :
    ∀ (cs : List String) (T T' : CellStore),
      goChildren (updateFuel ev n) cs T = some T' →
      valView T w = Value.str t → formView T w = t →
      valView T' w = Value.str t := by
  intro cs
  induction cs with
  | nil => intro T T' h hv _; rw [goChildren_nil] at h; cases h; exact hv
  | cons c0 cs ih =>
    intro T T' h hv hf
    rw [goChildren_cons] at h
    cases hl : lookupCell T c0 with
    | none => simp only [hl] at h; exact ih T T' h hv hf
    | some cd =>
      simp only [hl] at h
      cases hr : updateFuel ev n c0 cd.formula T with
      | none => simp only [hr] at h; cases h
      | some T1 =>
        simp only [hr] at h
        rw [mergeStores_collapse T T1
          (fun k hk => updateFuel_keys_mono n ev _ _ _ _ hr k hk)] at h
        have hfv : cd.formula = formView T c0 := by
          unfold formView
          rw [hl]
          rfl
        rw [hfv] at hr
        have hv1 : valView T1 w = Value.str t := hn c0 T T1 hr hv hf
        have hf1 : formView T1 w = t := by
          rw [updateFuel_form n ev c0 (formView T c0) T T1 hr w]
          by_cases hw : w = c0
          · subst hw; rw [if_pos rfl, ← hf]
          · rw [if_neg hw]; exact hf
        exact ih T1 T' h hv1 hf1

/-- A cell whose stored formula is a literal (no leading "=") equal to its
stored value keeps that value through any committed edit: the refresh can
only rewrite it by recomputing the same literal. -/
theorem updateFuel_lit_stable (t : String) (ht : startsWithEq t = false) :
    ∀ (n : Nat) (ev : String → Option Value) (w c : String) (T T' : CellStore),
      updateFuel ev n c (formView T c) T = some T' →
      valView T w = Value.str t → formView T w = t →
      valView T' w = Value.str t := by
  intro n
  induction n with
  | zero => intro ev w c T T' h; cases h
  | succ n ih =>
    intro ev w c T T' h hv hf
    rw [updateFuel_succ] at h
    cases hc : checkParents (n + 1) c T (parentsOf (formView T c)) with
    | none => simp only [hc] at h; cases h
    | some b =>
      cases b with
      | true =>
        simp only [hc] at h
        cases h
        by_cases hwc : w = c
        · subst hwc
          rw [hf, parentsOf_not_formula ht, checkParents_nil] at hc
          cases hc
        · rw [valView_insert, if_neg (fun hx => hwc hx)]
          exact hv
      | false =>
        simp only [hc] at h
        have hv2 : valView (addEdges
            (insertCell T c ⟨calculateFormula ev (formView T c) T, formView T c, depsOf T c⟩)
            (parentsOf (formView T c)) c) w = Value.str t := by
          rw [valView_addEdges, valView_insert]
          by_cases hwc : w = c
          · subst hwc
            rw [if_pos rfl, hf, calculateFormula_not_formula ev ht]
          · rw [if_neg hwc]
            exact hv
        have hf2 : formView (addEdges
            (insertCell T c ⟨calculateFormula ev (formView T c) T, formView T c, depsOf T c⟩)
            (parentsOf (formView T c)) c) w = t := by
          rw [formView_addEdges, formView_insert]
          by_cases hwc : w = c
          · subst hwc; rw [if_pos rfl]; exact hf
          · rw [if_neg hwc]; exact hf
        refine goChildren_lit_stable ev n w t
          (fun c2 T2 T2' h2 hv3 hf3 => ih ev w c2 T2 T2' h2 hv3 hf3)
          _ _ _ h ?_ hf2
        exact hv2

/-- Committing a literal formula stores the literal text itself as the
cell's value (the pass-through of `calculateFormula`), and this survives the
recursive refresh. -/
theorem updateFuel_lit_top {n : Nat} {ev : String → Option Value} {e t : String}
    {S S' : CellStore} (ht : startsWithEq t = false)
    (h : updateFuel ev n e t S = some S') :
    valView S' e = Value.str t ∧ formView S' e = t ∧
      (lookupCell S' e).isSome = true := by
  have hform : formView S' e = t := by
    rw [updateFuel_form n ev e t S S' h e, if_pos rfl]
  cases n with
  | zero => cases h
  | succ n =>
    rw [updateFuel_succ] at h
    rw [parentsOf_not_formula ht, checkParents_nil] at h
    simp only [] at h
    have hisSome : (lookupCell S' e).isSome = true := by
      refine goChildren_keys_mono (updateFuel ev n)
        (fun c f2 T T' h2 => updateFuel_keys_mono n ev c f2 T T' h2) _ _ _ h e ?_
      rw [addEdges_nil, lookupCell_insert_self]
      rfl
    have hv0 : valView (addEdges
        (insertCell S e ⟨calculateFormula ev t S, t, depsOf S e⟩) [] e) e =
        Value.str t := by
      rw [addEdges_nil, valView_insert, if_pos rfl,
        calculateFormula_not_formula ev ht]
    have hf0 : formView (addEdges
        (insertCell S e ⟨calculateFormula ev t S, t, depsOf S e⟩) [] e) e = t := by
      rw [addEdges_nil, formView_insert, if_pos rfl]
    refine ⟨?_, hform, hisSome⟩
    exact goChildren_lit_stable ev n e t
      (fun c2 T2 T2' h2 hv3 hf3 =>
        updateFuel_lit_stable t ht n ev e c2 T2 T2' h2 hv3 hf3)
      _ _ _ h hv0 hf0

end LitStable


section ClaimTheorems

/-- A trivial external evaluator that rejects every expression; used to
instantiate the evaluator parameter in concrete runs. -/
def evNone : String → Option Value := fun _ => none

/-- An external evaluator that knows just the arithmetic fact needed by the
materialization scenario. -/
def evAdd : String → Option Value :=
  fun s => if s = "0+1" then some (Value.num 1) else none

/-- Claim C1: starting from the empty store, every committed snapshot has an
acyclic dependents relation, and an edit whose references would close a
cycle yields "#CIRCULAR" on the edited cell while leaving every other cell
(and the edited cell's dependents) unchanged. -/
theorem claim1_acyclicity :
    (∀ (ev : String → Option Value) (edits : List (Nat × String × String))
      (S : CellStore), runEdits ev edits [] = some S → Acyclic S) ∧
    (∀ (ev : String → Option Value) (n : Nat) (e f : String) (S S' : CellStore),
      (∃ p ∈ parentsOf f, Reaches S e p) → updateFuel ev n e f S = some S' →
      lookupCell S' e = some ⟨Value.str "#CIRCULAR", f, depsOf S e⟩ ∧
      ∀ c, c ≠ e → lookupCell S' c = lookupCell S c) := by
  constructor
  · intro ev edits S h
    exact runEdits_acyclic ev edits [] S acyclic_empty h
  · intro ev n e f S S' hcyc h
    have hS' := updateFuel_circ h hcyc
    subst hS'
    exact ⟨lookupCell_insert_self S e _,
      fun c hc => lookupCell_insert_ne S e c _ hc⟩

theorem claim1_acyclicity_witness :
    Acyclic [("B1", ⟨Value.str "", "", ["A1"]⟩),
             ("A1", ⟨Value.str "#ERROR", "=B1", []⟩)] ∧
    lookupCell [("A1", ⟨Value.str "#CIRCULAR", "=A1", []⟩)] "A1" =
      some ⟨Value.str "#CIRCULAR", "=A1", depsOf ([] : CellStore) "A1"⟩ := by
  constructor
  · exact claim1_acyclicity.1 evNone [(2, "A1", "=B1")]
      [("B1", ⟨Value.str "", "", ["A1"]⟩), ("A1", ⟨Value.str "#ERROR", "=B1", []⟩)]
      (by decide)
  · exact (claim1_acyclicity.2 evNone 1 "A1" "=A1" []
      [("A1", ⟨Value.str "#CIRCULAR", "=A1", []⟩)]
      ⟨"A1", by decide, Reaches.refl "A1"⟩ (by decide)).1

/-- Claim C2 (amended): the back-edge invariant is preserved by every commit
that the cycle check accepts, provided it held in the input store; a
rejected edit stores the new formula without adding edges and so can break
it (see the counterexample). -/
theorem claim2_refs_invariant :
    ∀ (ev : String → Option Value) (n : Nat) (e f : String) (S S' : CellStore),
      RefsInv S → (∀ p ∈ parentsOf f, ¬ Reaches S e p) →
      updateFuel ev n e f S = some S' → RefsInv S' := by
  intro ev n e f S S' hI hguard h
  exact updateFuel_refsInv n ev e f S S' h hI
    (fun hex => absurd hex.choose_spec.2 (hguard hex.choose hex.choose_spec.1))

theorem claim2_counterexample :
    updateFuel evNone 1 "A1" "=A1" [] =
      some [("A1", ⟨Value.str "#CIRCULAR", "=A1", []⟩)] ∧
    ¬ RefsInv [("A1", ⟨Value.str "#CIRCULAR", "=A1", []⟩)] := by
  refine ⟨by decide, fun hI => ?_⟩
  have hmem := hI "A1" ⟨Value.str "#CIRCULAR", "=A1", []⟩ "A1" (by decide) (by decide)
  revert hmem
  decide

theorem claim2_refs_invariant_witness :
    RefsInv [("A1", ⟨Value.str "", "", ["B1"]⟩),
             ("B1", ⟨Value.str "#ERROR", "=A1", []⟩)] := by
  refine claim2_refs_invariant evNone 2 "B1" "=A1" [] _ refsInv_empty ?_ (by decide)
  intro p hp hr
  have h1 := @reaches_eq_of_no_deps [] (fun _ => rfl) "B1" p hr
  have hp2 : p = "A1" := by
    have hps : parentsOf "=A1" = ["A1"] := by decide
    rw [hps] at hp
    simpa using hp
  rw [hp2] at h1
  exact absurd h1 (by decide)

/-- Claim C3 (amended): whenever the depth-first search returns a result, it
returns true exactly when the candidate parent equals the edited cell or the
candidate parent is reachable from the edited cell along dependents edges
(the direction is inverted relative to the claim as stated; see the
counterexample). -/
theorem claim3_cycle_detector :
    ∀ (n : Nat) (editedCell candidateParent : String) (S : CellStore) (r : Bool),
      hasCirc n editedCell candidateParent S = some r →
      (r = true ↔
        (candidateParent = editedCell ∨ Reaches S editedCell candidateParent)) := by
  intro n a b S r h
  cases r with
  | true =>
    exact ⟨fun _ => Or.inr (hasCirc_some_true h), fun _ => rfl⟩
  | false =>
    constructor
    · intro hc; cases hc
    · intro hor
      rcases hor with rfl | hr
      · exact absurd (Reaches.refl _) (hasCirc_some_false h)
      · exact absurd hr (hasCirc_some_false h)

theorem claim3_cycle_detector_witness :
    ("B1" = "A1") ∨ Reaches [("A1", ⟨Value.str "", "", ["B1"]⟩)] "A1" "B1" :=
  (claim3_cycle_detector 2 "A1" "B1" [("A1", ⟨Value.str "", "", ["B1"]⟩)] true
    (by decide)).mp rfl

theorem claim3_counterexample :
    hasCirc 2 "A1" "B1" [("A1", ⟨Value.str "", "", ["B1"]⟩)] = some true ∧
    ¬ ("B1" = "A1" ∨
        Reaches [("A1", ⟨Value.str "", "", ["B1"]⟩)] "B1" "A1") := by
  refine ⟨by decide, fun hor => ?_⟩
  rcases hor with heq | hr
  · exact absurd heq (by decide)
  · rcases reaches_cases hr with heq | ⟨z, hz, _⟩
    · exact absurd heq (by decide)
    · unfold edgeTo at hz
      have hd : depsOf [("A1", ⟨Value.str "", "", ["B1"]⟩)] "B1" = [] := by decide
      rw [hd] at hz
      cases hz

/-- Claim C5: a formula referencing a cell whose current value carries an
error tag resolves to "#ERROR" for every external evaluator (the evaluator
is never consulted), and a commit of such a formula accepted by the cycle
check leaves "#ERROR" as the edited cell's value. -/
theorem claim5_poisoning :
    (∀ (ev : String → Option Value) (f : String) (S : CellStore),
      startsWithEq f = true →
      (∃ r ∈ exprRefs f, ∃ c, lookupCell S r = some c ∧
        (c.value = Value.str "#ERROR" ∨ c.value = Value.str "#CIRCULAR")) →
      calculateFormula ev f S = Value.str "#ERROR") ∧
    (∀ (ev : String → Option Value) (n : Nat) (e f : String) (S S' : CellStore),
      Acyclic S → startsWithEq f = true →
      (∃ r ∈ exprRefs f, ∃ c, lookupCell S r = some c ∧
        (c.value = Value.str "#ERROR" ∨ c.value = Value.str "#CIRCULAR")) →
      (∀ p ∈ parentsOf f, ¬ Reaches S e p) →
      updateFuel ev n e f S = some S' →
      valView S' e = Value.str "#ERROR") := by
  constructor
  · intro ev f S hf h
    exact calculateFormula_poisoned ev hf S h
  · intro ev n e f S S' hA hf herr hguard h
    have hval := (updateFuel_top hA h hguard).1
    rw [hval]
    exact calculateFormula_poisoned ev hf S herr

theorem claim5_poisoning_witness :
    calculateFormula evNone "=X1" [("X1", ⟨Value.str "#ERROR", "", []⟩)] =
      Value.str "#ERROR" ∧
    valView [("X1", ⟨Value.str "#ERROR", "", ["B1"]⟩),
             ("B1", ⟨Value.str "#ERROR", "=X1", []⟩)] "B1" = Value.str "#ERROR" := by
  constructor
  · exact claim5_poisoning.1 evNone "=X1" [("X1", ⟨Value.str "#ERROR", "", []⟩)]
      (by decide) ⟨"X1", by decide, ⟨Value.str "#ERROR", "", []⟩, by decide, Or.inl rfl⟩
  · refine claim5_poisoning.2 evNone 2 "B1" "=X1"
      [("X1", ⟨Value.str "#ERROR", "", []⟩)]
      [("X1", ⟨Value.str "#ERROR", "", ["B1"]⟩),
       ("B1", ⟨Value.str "#ERROR", "=X1", []⟩)]
      (acyclic_of_no_deps (depsOf_eq_nil_of_entries (by decide)))
      (by decide)
      ⟨"X1", by decide, ⟨Value.str "#ERROR", "", []⟩, by decide, Or.inl rfl⟩
      ?_ (by decide)
    intro p hp hr
    have h1 := reaches_eq_of_no_deps (depsOf_eq_nil_of_entries (by decide)) hr
    have hp2 : p = "X1" := by
      have hps : parentsOf "=X1" = ["X1"] := by decide
      rw [hps] at hp
      simpa using hp
    rw [hp2] at h1
    exact absurd h1 (by decide)

/-- Claim C6: when the cycle check fires for some extracted reference
(including a self-reference), the commit returns the input snapshot with the
edited cell set to "#CIRCULAR" and the new formula, its dependents
preserved, every other cell untouched, and no dependents edge added
anywhere. -/
theorem claim6_reject_frame :
    ∀ (ev : String → Option Value) (n : Nat) (e f : String) (S S' : CellStore),
      (∃ p ∈ parentsOf f, Reaches S e p) →
      updateFuel ev n e f S = some S' →
      lookupCell S' e = some ⟨Value.str "#CIRCULAR", f, depsOf S e⟩ ∧
      (∀ c, c ≠ e → lookupCell S' c = lookupCell S c) ∧
      (∀ c, depsOf S' c = depsOf S c) := by
  intro ev n e f S S' hcyc h
  have hS' := updateFuel_circ h hcyc
  subst hS'
  exact ⟨lookupCell_insert_self S e _,
    fun c hc => lookupCell_insert_ne S e c _ hc,
    fun c => depsOf_insert_keep S e _ f c⟩

theorem claim6_reject_frame_witness :
    lookupCell [("A1", ⟨Value.str "#CIRCULAR", "=A1", []⟩)] "A1" =
      some ⟨Value.str "#CIRCULAR", "=A1", depsOf ([] : CellStore) "A1"⟩ ∧
    ∀ c, depsOf [("A1", ⟨Value.str "#CIRCULAR", "=A1", []⟩)] c =
      depsOf ([] : CellStore) c := by
  have h := claim6_reject_frame evNone 1 "A1" "=A1" []
    [("A1", ⟨Value.str "#CIRCULAR", "=A1", []⟩)]
    ⟨"A1", by decide, Reaches.refl "A1"⟩ (by decide)
  exact ⟨h.1, h.2.2⟩

/-- Claim C7 (amended): committing C1 = "=Z99+1" on the empty store
materializes Z99 as an empty cell (value the empty string, which reads as 0
in formulas, not the number 0) with dependents exactly {C1}, and sets C1's
value to 1 when the evaluator computes "0+1" to 1; in general every
extracted reference of an accepted edit ends up holding the edited cell in
its dependents, absent references are materialized as empty cells, and edge
insertion never duplicates a dependents entry. -/
theorem claim7_materialization :
    (∀ ev : String → Option Value, ev "0+1" = some (Value.num 1) →
      ∃ S', updateFuel ev 2 "C1" "=Z99+1" [] = some S' ∧
        lookupCell S' "Z99" = some ⟨Value.str "", "", ["C1"]⟩ ∧
        valView S' "C1" = Value.num 1) ∧
    (∀ (ev : String → Option Value) (n : Nat) (e f : String) (S S' : CellStore),
      (∀ p ∈ parentsOf f, ¬ Reaches S e p) →
      updateFuel ev n e f S = some S' →
      ∀ p ∈ parentsOf f, e ∈ depsOf S' p ∧ (lookupCell S' p).isSome = true ∧
        (lookupCell S p = none →
          valView S' p = Value.str "" ∧ formView S' p = "")) ∧
    (∀ (ev : String → Option Value) (n : Nat) (e f : String) (S S' : CellStore),
      updateFuel ev n e f S = some S' → NodupDeps S → NodupDeps S') := by
  refine ⟨?_, ?_, ?_⟩
  · intro ev hev
    refine ⟨[("Z99", ⟨Value.str "", "", ["C1"]⟩),
      ("C1", ⟨calculateFormula ev "=Z99+1" [], "=Z99+1", []⟩)], rfl, rfl, ?_⟩
    have h1 : valView [("Z99", (⟨Value.str "", "", ["C1"]⟩ : Cell)),
        ("C1", ⟨calculateFormula ev "=Z99+1" [], "=Z99+1", []⟩)] "C1" =
        calculateFormula ev "=Z99+1" [] := rfl
    have h2 : calculateFormula ev "=Z99+1" ([] : CellStore) =
        match ev "0+1" with
        | some v => v
        | none => Value.str "#ERROR" := rfl
    rw [h1, h2, hev]
  · intro ev n e f S S' hguard h p hp
    cases n with
    | zero => cases h
    | succ n =>
      have h0 := h
      rw [updateFuel_succ] at h
      cases hc : checkParents (n + 1) e S (parentsOf f) with
      | none => simp only [hc] at h; cases h
      | some b =>
        cases b with
        | true =>
          obtain ⟨q, hq, hrq⟩ := checkParents_eq_true hc
          exact absurd hrq (hguard q hq)
        | false =>
          simp only [hc] at h
          refine ⟨?_, ?_, ?_⟩
          · refine goChildren_deps_mono_of ev n _ _ _ h p e ?_
            rw [mem_depsOf_addEdges]
            exact Or.inr ⟨hp, rfl⟩
          · refine goChildren_keys_mono (updateFuel ev n)
              (fun c f2 T T' h2 => updateFuel_keys_mono n ev c f2 T T' h2)
              _ _ _ h p ?_
            exact lookupCell_addEdges_mem_isSome _ _ _ _ hp
          · intro habs
            have hpe : p ≠ e := by
              intro hpe
              subst hpe
              exact hguard p hp (Reaches.refl p)
            have hv0 : valView (addEdges
                (insertCell S e ⟨calculateFormula ev f S, f, depsOf S e⟩)
                (parentsOf f) e) p = Value.str "" := by
              rw [valView_addEdges, valView_insert, if_neg hpe]
              unfold valView
              rw [habs]
              rfl
            have hf0 : formView (addEdges
                (insertCell S e ⟨calculateFormula ev f S, f, depsOf S e⟩)
                (parentsOf f) e) p = "" := by
              rw [formView_addEdges, formView_insert, if_neg hpe]
              unfold formView
              rw [habs]
              rfl
            refine ⟨?_, ?_⟩
            · exact goChildren_lit_stable ev n p ""
                (fun c2 T2 T2' h2 hv3 hf3 =>
                  updateFuel_lit_stable "" rfl n ev p c2 T2 T2' h2 hv3 hf3)
                _ _ _ h hv0 hf0
            · rw [updateFuel_form (n + 1) ev e f S S' h0 p, if_neg hpe]
              unfold formView
              rw [habs]
              rfl
  · intro ev n e f S S' h hN
    exact updateFuel_nodupDeps n ev e f S S' h hN

theorem claim7_materialization_witness :
    (∃ S', updateFuel evAdd 2 "C1" "=Z99+1" [] = some S' ∧
      lookupCell S' "Z99" = some ⟨Value.str "", "", ["C1"]⟩ ∧
      valView S' "C1" = Value.num 1) ∧
    ("B1" ∈ depsOf [("A1", ⟨Value.str "", "", ["B1"]⟩),
                    ("B1", ⟨Value.str "#ERROR", "=A1", []⟩)] "A1") ∧
    NodupDeps [("A1", ⟨Value.str "5", "5", []⟩)] := by
  refine ⟨claim7_materialization.1 evAdd (by decide), ?_, ?_⟩
  · have hguard : ∀ p ∈ parentsOf "=A1", ¬ Reaches ([] : CellStore) "B1" p := by
      intro p hp hr
      have h1 := @reaches_eq_of_no_deps [] (fun _ => rfl) "B1" p hr
      have hp2 : p = "A1" := by
        have hps : parentsOf "=A1" = ["A1"] := by decide
        rw [hps] at hp
        simpa using hp
      rw [hp2] at h1
      exact absurd h1 (by decide)
    exact (claim7_materialization.2.1 evNone 2 "B1" "=A1" []
      [("A1", ⟨Value.str "", "", ["B1"]⟩), ("B1", ⟨Value.str "#ERROR", "=A1", []⟩)]
      hguard (by decide) "A1" (by decide)).1
  · exact claim7_materialization.2.2 evNone 1 "A1" "5" []
      [("A1", ⟨Value.str "5", "5", []⟩)] (by decide) (fun _ => List.nodup_nil)

theorem c7_counterexample :
    updateFuel evAdd 2 "C1" "=Z99+1" [] =
      some [("Z99", ⟨Value.str "", "", ["C1"]⟩),
            ("C1", ⟨Value.num 1, "=Z99+1", []⟩)] ∧
    Value.str "" ≠ Value.num 0 := ⟨by decide, by decide⟩

/-- Claim C9: a commit only ever adds dependents edges; every cell's
dependents list in the result contains its dependents in the input store,
even when the new formula no longer references a former parent. -/
theorem claim9_stale_edges :
    ∀ (ev : String → Option Value) (n : Nat) (e f : String) (S S' : CellStore),
      updateFuel ev n e f S = some S' →
      ∀ c, depsOf S c ⊆ depsOf S' c := by
  intro ev n e f S S' h c x hx
  exact updateFuel_deps_mono n ev e f S S' h c x hx

theorem claim9_stale_edges_witness :
    "B1" ∈ depsOf [("A1", ⟨Value.str "5", "5", ["B1"]⟩)] "A1" :=
  claim9_stale_edges evNone 2 "A1" "5"
    [("A1", ⟨Value.str "", "", ["B1"]⟩)]
    [("A1", ⟨Value.str "5", "5", ["B1"]⟩)] (by decide) "A1" (by decide)

/-- Claim C10: committing the literal text "#ERROR" or "#CIRCULAR" (no
leading "=") stores that text unchanged as the cell's value, and any formula
referencing such a cell evaluates to "#ERROR" even though no evaluation
failure or cycle occurred. -/
theorem claim10_error_literals :
    (∀ (ev : String → Option Value) (n : Nat) (e t : String) (S S' : CellStore),
      (t = "#ERROR" ∨ t = "#CIRCULAR") →
      updateFuel ev n e t S = some S' →
      valView S' e = Value.str t ∧ formView S' e = t) ∧
    (∀ (ev : String → Option Value) (g : String) (T : CellStore)
      (e : String) (c : Cell),
      startsWithEq g = true → e ∈ exprRefs g →
      lookupCell T e = some c →
      (c.value = Value.str "#ERROR" ∨ c.value = Value.str "#CIRCULAR") →
      calculateFormula ev g T = Value.str "#ERROR") := by
  constructor
  · intro ev n e t S S' ht h
    have hts : startsWithEq t = false := by rcases ht with rfl | rfl <;> decide
    have hres := updateFuel_lit_top hts h
    exact ⟨hres.1, hres.2.1⟩
  · intro ev g T e c hg he hc htag
    exact calculateFormula_poisoned ev hg T ⟨e, he, c, hc, htag⟩

theorem claim10_error_literals_witness :
    (valView [("A1", ⟨Value.str "#ERROR", "#ERROR", []⟩)] "A1" =
        Value.str "#ERROR" ∧
      formView [("A1", ⟨Value.str "#ERROR", "#ERROR", []⟩)] "A1" = "#ERROR") ∧
    calculateFormula evNone "=A1" [("A1", ⟨Value.str "#ERROR", "#ERROR", []⟩)] =
      Value.str "#ERROR" := by
  constructor
  · exact claim10_error_literals.1 evNone 1 "A1" "#ERROR" []
      [("A1", ⟨Value.str "#ERROR", "#ERROR", []⟩)] (Or.inl rfl) (by decide)
  · exact claim10_error_literals.2 evNone "=A1"
      [("A1", ⟨Value.str "#ERROR", "#ERROR", []⟩)] "A1"
      ⟨Value.str "#ERROR", "#ERROR", []⟩ (by decide) (by decide) (by decide)
      (Or.inl rfl)

end ClaimTheorems


section HistoryClaim

/-- Claim C4: from a state whose current snapshot is S0, committing S makes
undo return exactly S0, a subsequent redo return exactly S, and any commit
truncates the history to the entries up to the cursor plus the new snapshot,
so entries beyond the cursor are discarded and unreachable by redo. -/
theorem claim4_history :
    ∀ (st : HistoryState) (S S0 : CellStore),
      st.history.get? st.historyIndex = some S0 →
      (handleUndo (saveToHistory st S)).2 = some S0 ∧
      (handleRedo (handleUndo (saveToHistory st S)).1).2 = some S ∧
      (∀ (st2 : HistoryState) (X : CellStore),
        (saveToHistory st2 X).history =
          st2.history.take (st2.historyIndex + 1) ++ [X]) := by
  intro st S S0 h0
  have hidx : st.historyIndex < st.history.length := by
    rcases List.get?_eq_some.mp h0 with ⟨h, _⟩
    exact h
  have htk : (st.history.take (st.historyIndex + 1)).length = st.historyIndex + 1 := by
    rw [List.length_take]
    omega
  have hsidx : (saveToHistory st S).historyIndex = st.historyIndex + 1 := by
    show (st.history.take (st.historyIndex + 1) ++ [S]).length - 1 = _
    rw [List.length_append, htk, List.length_singleton]
    omega
  have hshist : (saveToHistory st S).history =
      st.history.take (st.historyIndex + 1) ++ [S] := rfl
  have hget1 : (saveToHistory st S).history.get? st.historyIndex = some S0 := by
    rw [hshist, List.get?_append (by rw [htk]; omega),
      List.get?_take (Nat.lt_succ_self _)]
    exact h0
  have hget2 : (saveToHistory st S).history.get? (st.historyIndex + 1) = some S := by
    rw [hshist, List.get?_append_right (by rw [htk]), htk]
    simp
  have hundo : handleUndo (saveToHistory st S) =
      (⟨(saveToHistory st S).history, st.historyIndex⟩,
        (saveToHistory st S).history.get? st.historyIndex) := by
    unfold handleUndo
    rw [hsidx, if_pos (Nat.succ_pos _)]
    simp
  refine ⟨?_, ?_, fun st2 X => rfl⟩
  · rw [hundo]
    exact hget1
  · rw [hundo]
    show (handleRedo ⟨(saveToHistory st S).history, st.historyIndex⟩).2 = some S
    unfold handleRedo
    have hcond : st.historyIndex <
        (saveToHistory st S).history.length - 1 := by
      rw [hshist, List.length_append, htk, List.length_singleton]
      omega
    rw [if_pos]
    · exact hget2
    · exact hcond

theorem claim4_history_witness :
    (handleUndo (saveToHistory ⟨[[]], 0⟩ [("A1", ⟨Value.str "5", "5", []⟩)])).2 =
      some ([] : CellStore) ∧
    (handleRedo (handleUndo
        (saveToHistory ⟨[[]], 0⟩ [("A1", ⟨Value.str "5", "5", []⟩)])).1).2 =
      some [("A1", ⟨Value.str "5", "5", []⟩)] := by
  have h := claim4_history ⟨[[]], 0⟩ [("A1", ⟨Value.str "5", "5", []⟩)] [] rfl
  exact ⟨h.1, h.2.1⟩

end HistoryClaim


section ChainBounds

/-- The keys present in the store. -/
def keyList (s : CellStore) : List String := s.map Prod.fst

theorem chainFrom_cons {s : CellStore} {x z : String} {l : List String} :
    ChainFrom s x (z :: l) ↔ edgeTo s x z ∧ ChainFrom s z l := Iff.rfl

theorem chainFrom_reaches {s : CellStore} :
    ∀ {l : List String} {x y : String}, ChainFrom s x l → y ∈ l → Reaches s x y := by
  intro l
  induction l with
  | nil => intro x y _ hy; cases hy
  | cons z l ih =>
    intro x y h hy
    rw [chainFrom_cons] at h
    rcases List.mem_cons.mp hy with rfl | hyl
    · exact Reaches.step h.1 (Reaches.refl _)
    · exact Reaches.step h.1 (ih h.2 hyl)

theorem chainFrom_nodup {s : CellStore} (hA : Acyclic s) :
    ∀ {l : List String} {x : String}, ChainFrom s x l → (x :: l).Nodup := by
  intro l
  induction l with
  | nil => intro x _; exact List.nodup_singleton x
  | cons z l ih =>
    intro x h
    rw [chainFrom_cons] at h
    refine List.nodup_cons.mpr ⟨?_, ih h.2⟩
    intro hx
    rcases List.mem_cons.mp hx with rfl | hxl
    · exact hA x x h.1 (Reaches.refl _)
    · exact hA x z h.1 (chainFrom_reaches h.2 hxl)

theorem lookup_isSome_mem_keyList {s : CellStore} {k : String}
    (h : (lookupCell s k).isSome = true) : k ∈ keyList s := by
  unfold lookupCell at h
  cases hf : List.find? (fun e => e.1 == k) s with
  | none => rw [hf] at h; cases h
  | some e =>
    have hm := List.mem_of_find?_eq_some hf
    have hk : e.1 = k := by simpa using List.find?_some hf
    exact List.mem_map.mpr ⟨e, hm, hk⟩

theorem mem_keyList_iff {s : CellStore} {k : String} :
    k ∈ keyList s ↔ (lookupCell s k).isSome = true := by
  constructor
  · intro h
    obtain ⟨e, he, hk⟩ := List.mem_map.mp h
    have : (e.1, e.2) ∈ s := by simpa using he
    rw [← hk]
    exact lookupCell_isSome_of_mem this
  · exact lookup_isSome_mem_keyList

theorem edge_source_mem {s : CellStore} {x y : String} (he : edgeTo s x y) :
    x ∈ keyList s := by
  unfold edgeTo depsOf at he
  cases hl : lookupCell s x with
  | none => rw [hl] at he; cases he
  | some c =>
    exact lookup_isSome_mem_keyList (by rw [hl]; rfl)

theorem chain_sources_subset {s : CellStore} :
    ∀ (l : List String) (x : String), ChainFrom s x l →
      (x :: l).dropLast ⊆ (keyList s).dedup := by
  intro l
  induction l with
  | nil => intro x _; intro a ha; cases ha
  | cons z l ih =>
    intro x hch
    rw [chainFrom_cons] at hch
    have hx : x ∈ (keyList s).dedup := List.mem_dedup.mpr (edge_source_mem hch.1)
    have hrest := ih z hch.2
    show x :: (z :: l).dropLast ⊆ (keyList s).dedup
    exact List.cons_subset.mpr ⟨hx, hrest⟩

theorem chainFrom_length_le {s : CellStore} (hA : Acyclic s) {x : String}
    {l : List String} (h : ChainFrom s x l) :
    l.length ≤ (keyList s).dedup.length := by
  have hnd : (x :: l).Nodup := chainFrom_nodup hA h
  have hnd2 : ((x :: l).dropLast).Nodup := hnd.sublist (List.dropLast_sublist _)
  have hsp := (hnd2.subperm (chain_sources_subset l x h)).length_le
  rw [List.length_dropLast, List.length_cons] at hsp
  simpa using hsp

theorem hasCirc_isSome_of_bound {s : CellStore} :
    ∀ (n : Nat) (a : String), (∀ l, ChainFrom s a l → l.length < n) →
      ∀ b, (hasCirc n a b s).isSome = true := by
  intro n
  induction n with
  | zero =>
    intro a hb b
    exact absurd (hb [] trivial) (by omega)
  | succ n ih =>
    intro a hb b
    rw [hasCirc_succ]
    by_cases hab : a = b
    · rw [if_pos hab]; rfl
    · rw [if_neg hab]
      refine firstSomeTrue_isSome ?_
      intro d hd
      refine ih d ?_ b
      intro l hl
      have h1 := hb (d :: l) (chainFrom_cons.mpr ⟨hd, hl⟩)
      rw [List.length_cons] at h1
      omega

/-- The depth-first search of `hasCircularDependency` terminates on every
acyclic store: fuel one more than the number of keys suffices. -/
theorem hasCirc_exists {S : CellStore} (hA : Acyclic S) (a b : String) :
    (hasCirc ((keyList S).dedup.length + 1) a b S).isSome = true := by
  refine hasCirc_isSome_of_bound _ a ?_ b
  intro l hl
  exact Nat.lt_succ_of_le (chainFrom_length_le hA hl)

theorem checkParents_isSome {S : CellStore} (hA : Acyclic S) (e : String)
    (ps : List String) :
    (checkParents ((keyList S).dedup.length + 1) e S ps).isSome = true :=
  firstSomeTrue_isSome (fun p _ => hasCirc_exists hA e p)

theorem checkParents_le {n m : Nat} (hnm : n ≤ m) {e : String} {S : CellStore}
    {ps : List String} {r : Bool}
    (h : checkParents n e S ps = some r) : checkParents m e S ps = some r :=
  firstSomeTrue_mono (fun _ _ _ h2 => hasCirc_le hnm h2) r h

end ChainBounds

section FuelMono

theorem goChildren_mono_pointwise
    {rec1 rec2 : String → String → CellStore → Option CellStore}
    (h12 : ∀ c f T T', rec1 c f T = some T' → rec2 c f T = some T') :
    ∀ (cs : List String) (T T' : CellStore),
      goChildren rec1 cs T = some T' → goChildren rec2 cs T = some T' := by
  intro cs
  induction cs with
  | nil => intro T T' h; exact h
  | cons c cs ih =>
    intro T T' h
    rw [goChildren_cons] at h
    rw [goChildren_cons]
    cases hl : lookupCell T c with
    | none =>
      simp only [hl] at h ⊢
      exact ih T T' h
    | some cd =>
      simp only [hl] at h ⊢
      cases hr : rec1 c cd.formula T with
      | none => simp only [hr] at h; cases h
      | some T1 =>
        simp only [hr] at h
        rw [h12 c cd.formula T T1 hr]
        exact ih _ T' h

theorem updateFuel_fuel_mono :
    ∀ (n : Nat) (ev : String → Option Value) (e f : String) (S S' : CellStore),
      updateFuel ev n e f S = some S' → updateFuel ev (n + 1) e f S = some S' := by
  intro n
  induction n with
  | zero => intro ev e f S S' h; cases h
  | succ n ih =>
    intro ev e f S S' h
    rw [updateFuel_succ] at h
    rw [updateFuel_succ]
    cases hc : checkParents (n + 1) e S (parentsOf f) with
    | none => simp only [hc] at h; cases h
    | some b =>
      simp only [hc] at h
      rw [checkParents_mono hc]
      cases b with
      | true => exact h
      | false =>
        exact goChildren_mono_pointwise
          (fun c f2 T T' h2 => ih ev c f2 T T' h2) _ _ _ h

theorem updateFuel_fuel_le {n m : Nat} (hnm : n ≤ m)
    {ev : String → Option Value} {e f : String} {S S' : CellStore}
    (h : updateFuel ev n e f S = some S') : updateFuel ev m e f S = some S' := by
  induction hnm with
  | refl => exact h
  | step _ ih => exact updateFuel_fuel_mono _ ev e f S S' ih

end FuelMono


section MissingCount

/-- The number of formula references of the cell at `k` that are not yet
backed by a dependents edge. -/
def missingFor (S : CellStore) (k : String) : Nat :=
  ((parentsOf (formView S k)).dedup).countP (fun p => decide (k ∉ depsOf S p))

/-- The total number of missing formula-to-dependents back edges over the
keys of the store; every push of the edge-insertion loop lowers it. -/
def Mcount (S : CellStore) : Nat :=
  ((keyList S).dedup.map (fun k => missingFor S k)).sum

/-- Two stores with the same key set, formulas and dependents (values may
differ). -/
def GraphEq (S T : CellStore) : Prop :=
  (∀ k, (lookupCell S k).isSome = (lookupCell T k).isSome) ∧
  (∀ k, formView S k = formView T k) ∧
  (∀ k, depsOf S k = depsOf T k)

theorem graphEq_refl (S : CellStore) : GraphEq S S :=
  ⟨fun _ => rfl, fun _ => rfl, fun _ => rfl⟩

theorem graphEq_symm {S T : CellStore} (h : GraphEq S T) : GraphEq T S :=
  ⟨fun k => (h.1 k).symm, fun k => (h.2.1 k).symm, fun k => (h.2.2 k).symm⟩

theorem graphEq_trans {S T U : CellStore} (h1 : GraphEq S T) (h2 : GraphEq T U) :
    GraphEq S U :=
  ⟨fun k => (h1.1 k).trans (h2.1 k), fun k => (h1.2.1 k).trans (h2.2.1 k),
    fun k => (h1.2.2 k).trans (h2.2.2 k)⟩

theorem dedup_perm_of_same_mem {l1 l2 : List String}
    (h : ∀ a, a ∈ l1 ↔ a ∈ l2) : l1.dedup.Perm l2.dedup := by
  refine List.Subperm.antisymm ?_ ?_
  · refine (List.nodup_dedup l1).subperm ?_
    intro a ha
    rw [List.mem_dedup] at ha ⊢
    exact (h a).mp ha
  · refine (List.nodup_dedup l2).subperm ?_
    intro a ha
    rw [List.mem_dedup] at ha ⊢
    exact (h a).mpr ha

theorem keyList_dedup_perm {S T : CellStore}
    (h : ∀ k, (lookupCell S k).isSome = (lookupCell T k).isSome) :
    (keyList S).dedup.Perm (keyList T).dedup :=
  dedup_perm_of_same_mem (fun k => by rw [mem_keyList_iff, mem_keyList_iff, h k])

theorem missingFor_congr {S T : CellStore} (k : String)
    (hf : formView S k = formView T k)
    (hd : ∀ q, depsOf S q = depsOf T q) : missingFor S k = missingFor T k := by
  unfold missingFor
  rw [hf]
  refine List.countP_congr ?_
  intro q _
  rw [decide_eq_true_iff, decide_eq_true_iff, hd q]

theorem Mcount_graphEq {S T : CellStore} (h : GraphEq S T) : Mcount S = Mcount T := by
  unfold Mcount
  have h1 : (keyList S).dedup.map (fun k => missingFor S k) =
      (keyList S).dedup.map (fun k => missingFor T k) :=
    List.map_congr_left (fun a _ => missingFor_congr a (h.2.1 a) h.2.2)
  rw [h1]
  exact ((keyList_dedup_perm h.1).map _).sum_eq

theorem countP_le_of_imp {l : List String} {p q : String → Bool}
    (h : ∀ a ∈ l, p a = true → q a = true) : l.countP p ≤ l.countP q := by
  induction l with
  | nil => exact Nat.le_refl _
  | cons a t ih =>
    rw [List.countP_cons, List.countP_cons]
    have ht := ih (fun b hb => h b (List.mem_cons_of_mem _ hb))
    by_cases hp : p a = true
    · rw [if_pos hp, if_pos (h a (List.mem_cons_self _ _) hp)]
      omega
    · rw [if_neg hp]
      split <;> omega

theorem countP_lt_of_flip {l : List String} {p q : String → Bool}
    (h : ∀ a ∈ l, p a = true → q a = true) {a0 : String} (ha0 : a0 ∈ l)
    (hq : q a0 = true) (hp : p a0 = false) : l.countP p < l.countP q := by
  induction l with
  | nil => cases ha0
  | cons a t ih =>
    rw [List.countP_cons, List.countP_cons]
    have hle := countP_le_of_imp (fun b hb => h b (List.mem_cons_of_mem _ hb))
    rcases List.mem_cons.mp ha0 with rfl | ha0t
    · rw [hp, hq]
      rw [if_neg (by simp), if_pos rfl]
      omega
    · have hlt := ih (fun b hb => h b (List.mem_cons_of_mem _ hb)) ha0t
      by_cases hpa : p a = true
      · rw [if_pos hpa, if_pos (h a (List.mem_cons_self _ _) hpa)]
        omega
      · rw [if_neg hpa]
        split <;> omega

theorem sum_map_le_sum_map {l : List String} {f g : String → Nat}
    (h : ∀ a ∈ l, f a ≤ g a) : (l.map f).sum ≤ (l.map g).sum := by
  induction l with
  | nil => exact Nat.le_refl _
  | cons a t ih =>
    simp only [List.map_cons, List.sum_cons]
    have h1 := ih (fun b hb => h b (List.mem_cons_of_mem _ hb))
    have h2 := h a (List.mem_cons_self _ _)
    omega

theorem sum_map_lt_sum_map {l : List String} {f g : String → Nat}
    (hle : ∀ a ∈ l, f a ≤ g a) {a0 : String} (ha0 : a0 ∈ l) (hlt : f a0 < g a0) :
    (l.map f).sum < (l.map g).sum := by
  induction l with
  | nil => cases ha0
  | cons a t ih =>
    simp only [List.map_cons, List.sum_cons]
    have h2 := hle a (List.mem_cons_self _ _)
    rcases List.mem_cons.mp ha0 with rfl | ha0t
    · have h3 := sum_map_le_sum_map (fun b hb => hle b (List.mem_cons_of_mem _ hb))
      omega
    · have h3 := ih (fun b hb => hle b (List.mem_cons_of_mem _ hb)) ha0t
      omega

theorem mcount_le_aux {S T : CellStore}
    (hform : ∀ k, formView T k = formView S k)
    (hmono : ∀ q, depsOf S q ⊆ depsOf T q) (k : String) :
    missingFor T k ≤ missingFor S k := by
  unfold missingFor
  rw [hform k]
  refine countP_le_of_imp ?_
  intro q _ hq
  rw [decide_eq_true_iff] at hq ⊢
  exact fun hmem => hq (hmono q hmem)

theorem graphEq_insert_same (S : CellStore) (k : String) (v : Value)
    (hk : (lookupCell S k).isSome = true) :
    GraphEq (insertCell S k ⟨v, formView S k, depsOf S k⟩) S := by
  refine ⟨?_, ?_, ?_⟩
  · intro q
    by_cases hq : q = k
    · subst hq
      rw [lookupCell_insert_self, hk]
      rfl
    · rw [lookupCell_insert_ne _ _ _ _ hq]
  · intro q
    rw [formView_insert]
    by_cases hq : q = k
    · subst hq; rw [if_pos rfl]
    · rw [if_neg hq]
  · exact depsOf_insert_keep S k v (formView S k)

theorem graphEq_insert_value (S : CellStore) (k : String) (v1 v2 : Value)
    (f : String) (d : List String) :
    GraphEq (insertCell S k ⟨v1, f, d⟩) (insertCell S k ⟨v2, f, d⟩) := by
  refine ⟨?_, ?_, ?_⟩
  · intro q
    by_cases hq : q = k
    · subst hq
      rw [lookupCell_insert_self, lookupCell_insert_self]
      rfl
    · rw [lookupCell_insert_ne _ _ _ _ hq, lookupCell_insert_ne _ _ _ _ hq]
  · intro q
    rw [formView_insert, formView_insert]
  · intro q
    unfold depsOf
    by_cases hq : q = k
    · subst hq; rw [lookupCell_insert_self, lookupCell_insert_self]
    · rw [lookupCell_insert_ne _ _ _ _ hq, lookupCell_insert_ne _ _ _ _ hq]

/-- One step of the edge-insertion loop either leaves the store untouched
(the edge already exists) or strictly lowers the count of missing back
edges. -/
theorem addDependent_eq_or_lt (S : CellStore) (p e : String)
    (he : (lookupCell S e).isSome = true)
    (hp : p ∈ (parentsOf (formView S e)).dedup) :
    addDependent S p e = S ∨ Mcount (addDependent S p e) < Mcount S := by
  by_cases hmem : e ∈ depsOf S p
  · left
    unfold addDependent
    cases hl : lookupCell S p with
    | none =>
      exfalso
      have hd : depsOf S p = [] := by unfold depsOf; rw [hl]
      rw [hd] at hmem
      cases hmem
    | some c =>
      have hd : depsOf S p = c.dependencies := by unfold depsOf; rw [hl]
      simp only [hl, Option.getD_some]
      rw [if_pos (hd ▸ hmem)]
  · right
    have hform : ∀ k, formView (addDependent S p e) k = formView S k :=
      fun k => formView_addDependent S p e k
    have hdne : ∀ q, q ≠ p → depsOf (addDependent S p e) q = depsOf S q := by
      intro q hq
      unfold depsOf
      rw [lookupCell_addDependent_ne _ _ _ _ hq]
    have hdp : depsOf (addDependent S p e) p = depsOf S p ++ [e] := by
      rw [depsOf_addDependent_self, if_neg hmem]
    have hmono : ∀ q, depsOf S q ⊆ depsOf (addDependent S p e) q := by
      intro q x hx
      by_cases hq : q = p
      · subst hq; rw [hdp]; exact List.mem_append_left _ hx
      · rw [hdne q hq]; exact hx
    have hstrict : missingFor (addDependent S p e) e < missingFor S e := by
      unfold missingFor
      rw [hform e]
      refine countP_lt_of_flip ?_ hp ?_ ?_
      · intro q _ hq
        rw [decide_eq_true_iff] at hq ⊢
        exact fun hm => hq (hmono q hm)
      · rw [decide_eq_true_iff]; exact hmem
      · rw [decide_eq_false_iff_not]
        intro hcon
        exact hcon (by rw [hdp]; exact List.mem_append_right _ (List.mem_singleton_self e))
    have hle : ∀ k, missingFor (addDependent S p e) k ≤ missingFor S k :=
      mcount_le_aux hform hmono
    have hedede : e ∈ (keyList S).dedup :=
      List.mem_dedup.mpr (lookup_isSome_mem_keyList he)
    by_cases hps : (lookupCell S p).isSome = true
    · have hkeq : ∀ k, (lookupCell (addDependent S p e) k).isSome =
          (lookupCell S k).isSome := by
        intro k
        by_cases hk : k = p
        · subst hk
          rw [lookupCell_addDependent_self, hps]
          rfl
        · rw [lookupCell_addDependent_ne _ _ _ _ hk]
      unfold Mcount
      rw [((keyList_dedup_perm hkeq).map _).sum_eq]
      exact sum_map_lt_sum_map (fun a _ => hle a) hedede hstrict
    · have hpnotin : p ∉ (keyList S).dedup :=
        fun hc => hps (mem_keyList_iff.mp (List.mem_dedup.mp hc))
      have hTp : (lookupCell (addDependent S p e) p).isSome = true := by
        rw [lookupCell_addDependent_self]
        rfl
      have hperm : (keyList (addDependent S p e)).dedup.Perm
          (p :: (keyList S).dedup) := by
        refine List.Subperm.antisymm ?_ ?_
        · refine (List.nodup_dedup _).subperm ?_
          intro a ha
          rw [List.mem_dedup, mem_keyList_iff] at ha
          by_cases hap : a = p
          · subst hap; exact List.mem_cons_self _ _
          · rw [lookupCell_addDependent_ne _ _ _ _ hap] at ha
            exact List.mem_cons_of_mem _
              (List.mem_dedup.mpr (lookup_isSome_mem_keyList ha))
        · refine (List.nodup_cons.mpr ⟨hpnotin, List.nodup_dedup _⟩).subperm ?_
          intro a ha
          rcases List.mem_cons.mp ha with rfl | ha2
          · exact List.mem_dedup.mpr (lookup_isSome_mem_keyList hTp)
          · rw [List.mem_dedup, mem_keyList_iff] at ha2
            exact List.mem_dedup.mpr (lookup_isSome_mem_keyList
              (lookupCell_addDependent_isSome S p e a ha2))
      unfold Mcount
      rw [(hperm.map _).sum_eq]
      simp only [List.map_cons, List.sum_cons]
      have hz : missingFor (addDependent S p e) p = 0 := by
        unfold missingFor
        rw [hform p]
        have hfp : formView S p = "" := by
          unfold formView
          cases hlp : lookupCell S p with
          | none => rfl
          | some c => exact absurd (by rw [hlp]; rfl) hps
        rw [hfp, parentsOf_not_formula (show startsWithEq "" = false from rfl)]
        rfl
      rw [hz]
      have hsl : (List.map (fun k => missingFor (addDependent S p e) k)
            (keyList S).dedup).sum <
          (List.map (fun k => missingFor S k) (keyList S).dedup).sum :=
        sum_map_lt_sum_map (fun a _ => hle a) hedede hstrict
      omega

theorem addEdges_eq_or_lt :
    ∀ (ps : List String) (S : CellStore) (e : String),
      (lookupCell S e).isSome = true →
      (∀ p ∈ ps, p ∈ (parentsOf (formView S e)).dedup) →
      addEdges S ps e = S ∨ Mcount (addEdges S ps e) < Mcount S := by
  intro ps
  induction ps with
  | nil => intro S e _ _; exact Or.inl rfl
  | cons p ps ih =>
    intro S e he hps
    rw [addEdges_cons]
    rcases addDependent_eq_or_lt S p e he (hps p (List.mem_cons_self _ _)) with heq | hlt
    · rw [heq]
      exact ih S e he (fun q hq => hps q (List.mem_cons_of_mem _ hq))
    · right
      have he2 : (lookupCell (addDependent S p e) e).isSome = true :=
        lookupCell_addDependent_isSome S p e e he
      have hform2 : formView (addDependent S p e) e = formView S e :=
        formView_addDependent S p e e
      rcases ih (addDependent S p e) e he2
          (fun q hq => by rw [hform2]; exact hps q (List.mem_cons_of_mem _ hq))
        with heq2 | hlt2
      · rw [heq2]; exact hlt
      · exact lt_trans hlt2 hlt

end MissingCount


section StoreDichotomy

theorem formView_of_lookup {T : CellStore} {c : String} {cd : Cell}
    (hl : lookupCell T c = some cd) : formView T c = cd.formula := by
  unfold formView
  rw [hl]
  rfl

theorem dich_trans {A B C : CellStore} :
    (GraphEq B A ∨ Mcount B < Mcount A) →
    (GraphEq C B ∨ Mcount C < Mcount B) →
    (GraphEq C A ∨ Mcount C < Mcount A) := by
  rintro (h1 | h1) (h2 | h2)
  · exact Or.inl (graphEq_trans h2 h1)
  · right
    rw [← Mcount_graphEq h1]
    exact h2
  · right
    rw [Mcount_graphEq h2]
    exact h1
  · exact Or.inr (lt_trans h2 h1)

theorem goChildren_dich (ev : String → Option Value) (n : Nat)
    (hn : ∀ (c : String) (T T' : CellStore), (lookupCell T c).isSome = true →
      updateFuel ev n c (formView T c) T = some T' →
      GraphEq T' T ∨ Mcount T' < Mcount T) :
    ∀ (cs : List String) (T T' : CellStore),
      goChildren (updateFuel ev n) cs T = some T' →
      GraphEq T' T ∨ Mcount T' < Mcount T := by
  intro cs
  induction cs with
  | nil =>
    intro T T' h
    rw [goChildren_nil] at h
    cases h
    exact Or.inl (graphEq_refl T)
  | cons c0 cs ih =>
    intro T T' h
    rw [goChildren_cons] at h
    cases hl : lookupCell T c0 with
    | none => simp only [hl] at h; exact ih T T' h
    | some cd =>
      simp only [hl] at h
      cases hrx : updateFuel ev n c0 cd.formula T with
      | none => simp only [hrx] at h; cases h
      | some T1 =>
        simp only [hrx] at h
        rw [mergeStores_collapse T T1
          (fun k hk => updateFuel_keys_mono n ev _ _ _ _ hrx k hk)] at h
        have hrx2 : updateFuel ev n c0 (formView T c0) T = some T1 := by
          rw [formView_of_lookup hl]
          exact hrx
        have hd1 := hn c0 T T1 (by rw [hl]; rfl) hrx2
        exact dich_trans hd1 (ih T1 T' h)

/-- A committed edit that rewrites a cell with its stored formula either
leaves keys, formulas and dependents untouched or strictly lowers the count
of missing back edges. -/
theorem updateFuel_dich :
    ∀ (n : Nat) (ev : String → Option Value) (c : String) (T T' : CellStore),
      (lookupCell T c).isSome = true →
      updateFuel ev n c (formView T c) T = some T' →
      GraphEq T' T ∨ Mcount T' < Mcount T := by
  intro n
  induction n with
  | zero => intro ev c T T' _ h; cases h
  | succ n ih =>
    intro ev c T T' hTc h
    rw [updateFuel_succ] at h
    cases hc : checkParents (n + 1) c T (parentsOf (formView T c)) with
    | none => simp only [hc] at h; cases h
    | some b =>
      cases b with
      | true =>
        simp only [hc] at h
        cases h
        exact Or.inl (graphEq_insert_same T c _ hTc)
      | false =>
        simp only [hc] at h
        have hge1 : GraphEq
            (insertCell T c ⟨calculateFormula ev (formView T c) T, formView T c,
              depsOf T c⟩) T :=
          graphEq_insert_same T c _ hTc
        have hS1e : (lookupCell
            (insertCell T c ⟨calculateFormula ev (formView T c) T, formView T c,
              depsOf T c⟩) c).isSome = true := by
          rw [lookupCell_insert_self]
          rfl
        have hmemd : ∀ p ∈ parentsOf (formView T c),
            p ∈ (parentsOf (formView
              (insertCell T c ⟨calculateFormula ev (formView T c) T, formView T c,
                depsOf T c⟩) c)).dedup := by
          intro p hp
          rw [formView_insert, if_pos rfl]
          exact List.mem_dedup.mpr hp
        have hd2 : GraphEq
            (addEdges (insertCell T c ⟨calculateFormula ev (formView T c) T,
              formView T c, depsOf T c⟩) (parentsOf (formView T c)) c)
            (insertCell T c ⟨calculateFormula ev (formView T c) T, formView T c,
              depsOf T c⟩) ∨
            Mcount (addEdges (insertCell T c ⟨calculateFormula ev (formView T c) T,
              formView T c, depsOf T c⟩) (parentsOf (formView T c)) c) <
            Mcount (insertCell T c ⟨calculateFormula ev (formView T c) T,
              formView T c, depsOf T c⟩) := by
          rcases addEdges_eq_or_lt (parentsOf (formView T c)) _ c hS1e hmemd with
            heq | hlt
          · left
            rw [heq]
            exact graphEq_refl _
          · exact Or.inr hlt
        have hd3 := goChildren_dich ev n
          (fun c2 T2 T2' h2 h3 => ih ev c2 T2 T2' h2 h3) _ _ _ h
        exact dich_trans (Or.inl hge1) (dich_trans hd2 hd3)

end StoreDichotomy

section Heights

/-- Fuel-bounded longest-path length from a node along dependents edges. -/
def heightFuel : Nat → CellStore → String → Nat
  | 0, _, _ => 0
  | n + 1, S, x =>
    (depsOf S x).foldr (fun d acc => max acc (heightFuel n S d + 1)) 0

theorem heightFuel_succ (n : Nat) (S : CellStore) (x : String) :
    heightFuel (n + 1) S x =
      (depsOf S x).foldr (fun d acc => max acc (heightFuel n S d + 1)) 0 := rfl

theorem foldr_max_le_mem {l : List String} {f : String → Nat} {d : String}
    (hd : d ∈ l) : f d ≤ l.foldr (fun d acc => max acc (f d)) 0 := by
  induction l with
  | nil => cases hd
  | cons a t ih =>
    simp only [List.foldr_cons]
    rcases List.mem_cons.mp hd with rfl | hdt
    · exact le_max_right _ _
    · exact le_trans (ih hdt) (le_max_left _ _)

theorem foldr_max_congr {l : List String} {f g : String → Nat}
    (h : ∀ a ∈ l, f a = g a) :
    l.foldr (fun d acc => max acc (f d)) 0 =
      l.foldr (fun d acc => max acc (g d)) 0 := by
  induction l with
  | nil => rfl
  | cons a t ih =>
    simp only [List.foldr_cons]
    rw [h a (List.mem_cons_self _ _),
      ih (fun b hb => h b (List.mem_cons_of_mem _ hb))]

theorem heightFuel_stab {S : CellStore} :
    ∀ (n m : Nat) (x : String), (∀ l, ChainFrom S x l → l.length ≤ m) → m < n →
      heightFuel n S x = heightFuel (n + 1) S x := by
  intro n
  induction n with
  | zero => intro m x _ hm; omega
  | succ n ih =>
    intro m x hb hm
    rw [heightFuel_succ, heightFuel_succ]
    refine foldr_max_congr ?_
    intro d hd
    have hdbound : ∀ l, ChainFrom S d l → l.length ≤ m - 1 := by
      intro l hl
      have h2 := hb (d :: l) (chainFrom_cons.mpr ⟨hd, hl⟩)
      rw [List.length_cons] at h2
      have hm1 : 1 ≤ m := by
        have h3 := hb [d] (chainFrom_cons.mpr ⟨hd, trivial⟩)
        simpa using h3
      omega
    have hm1 : 1 ≤ m := by
      have h3 := hb [d] (chainFrom_cons.mpr ⟨hd, trivial⟩)
      simpa using h3
    rw [ih (m - 1) d hdbound (by omega)]

theorem heightFuel_stab_le {S : CellStore} {x : String} {m : Nat}
    (hb : ∀ l, ChainFrom S x l → l.length ≤ m) :
    ∀ {n n' : Nat}, m < n → n ≤ n' → heightFuel n S x = heightFuel n' S x := by
  intro n n' hm hle
  induction hle with
  | refl => rfl
  | @step n2 h2 ih =>
    rw [ih]
    exact heightFuel_stab n2 m x hb (lt_of_lt_of_le hm h2)

/-- Longest-path length from a node, with canonical fuel one above the key
count. -/
def heightOf (S : CellStore) (x : String) : Nat :=
  heightFuel ((keyList S).dedup.length + 1) S x

theorem heightOf_lt {S : CellStore} (hA : Acyclic S) {x d : String}
    (hd : d ∈ depsOf S x) : heightOf S d < heightOf S x := by
  have h1 : heightFuel ((keyList S).dedup.length) S d + 1 ≤
      heightFuel ((keyList S).dedup.length + 1) S x := by
    rw [heightFuel_succ]
    exact @foldr_max_le_mem (depsOf S x)
      (fun q => heightFuel ((keyList S).dedup.length) S q + 1) d hd
  have hCBd : ∀ l, ChainFrom S d l → l.length ≤ (keyList S).dedup.length - 1 := by
    intro l hl
    have h2 := chainFrom_length_le hA (chainFrom_cons.mpr ⟨hd, hl⟩)
    rw [List.length_cons] at h2
    omega
  have hK1 : 1 ≤ (keyList S).dedup.length := by
    have hx : x ∈ (keyList S).dedup := List.mem_dedup.mpr (edge_source_mem hd)
    exact List.length_pos_of_mem hx
  have h2 : heightFuel ((keyList S).dedup.length) S d =
      heightFuel ((keyList S).dedup.length + 1) S d :=
    heightFuel_stab_le hCBd (by omega) (by omega)
  unfold heightOf
  omega

theorem heightFuel_deps_congr {S T : CellStore}
    (hd : ∀ k, depsOf S k = depsOf T k) :
    ∀ (n : Nat) (x : String), heightFuel n S x = heightFuel n T x := by
  intro n
  induction n with
  | zero => intro x; rfl
  | succ n ih =>
    intro x
    rw [heightFuel_succ, heightFuel_succ, hd x]
    exact foldr_max_congr (fun a _ => by rw [ih a])

theorem heightOf_graphEq {S T : CellStore} (h : GraphEq S T) (x : String) :
    heightOf S x = heightOf T x := by
  unfold heightOf
  rw [(keyList_dedup_perm h.1).length_eq]
  exact heightFuel_deps_congr h.2.2 _ x

end Heights

section ChildAssembly

theorem goChildren_exists (ev : String → Option Value)
    (P : CellStore → Prop) (cs0 : List String)
    (hstep : ∀ T c cd T' n, P T → lookupCell T c = some cd →
      updateFuel ev n c cd.formula T = some T' → P T')
    (hcall : ∀ T c cd, P T → c ∈ cs0 → lookupCell T c = some cd →
      ∃ n, (updateFuel ev n c cd.formula T).isSome = true) :
    ∀ (cs : List String), cs ⊆ cs0 → ∀ T, P T →
      ∃ n, (goChildren (updateFuel ev n) cs T).isSome = true := by
  intro cs
  induction cs with
  | nil => intro _ T _; exact ⟨0, rfl⟩
  | cons c cs ih =>
    intro hsub T hP
    cases hl : lookupCell T c with
    | none =>
      obtain ⟨n, hn⟩ := ih (fun q hq => hsub (List.mem_cons_of_mem _ hq)) T hP
      refine ⟨n, ?_⟩
      rw [goChildren_cons]
      simp only [hl]
      exact hn
    | some cd =>
      obtain ⟨n1, hn1⟩ := hcall T c cd hP (hsub (List.mem_cons_self _ _)) hl
      obtain ⟨T1, hT1⟩ := Option.isSome_iff_exists.mp hn1
      obtain ⟨n2, hn2⟩ := ih (fun q hq => hsub (List.mem_cons_of_mem _ hq)) T1
        (hstep T c cd T1 n1 hP hl hT1)
      obtain ⟨T2, hT2⟩ := Option.isSome_iff_exists.mp hn2
      refine ⟨max n1 n2, ?_⟩
      have hu : updateFuel ev (max n1 n2) c cd.formula T = some T1 :=
        updateFuel_fuel_le (le_max_left _ _) hT1
      have hg : goChildren (updateFuel ev (max n1 n2)) cs T1 = some T2 :=
        goChildren_mono_pointwise
          (fun c2 f2 Ta Tb h2 => updateFuel_fuel_le (le_max_right _ _) h2)
          cs T1 T2 hT2
      rw [goChildren_cons_merge (updateFuel ev (max n1 n2)) c cs T T1 cd hl hu
        (fun k hk => updateFuel_keys_mono _ ev _ _ _ _ hu k hk), hg]
      rfl

end ChildAssembly


section Termination

/-- Nested strong induction on the count of missing back edges and on the
height of the edited cell: every commit on an acyclic store succeeds with
some fuel.  The measure store writes a placeholder value, which the count
and the height ignore. -/
theorem updateFuel_terminates_measure :
    ∀ (m h : Nat) (ev : String → Option Value) (S : CellStore) (e f : String),
      Acyclic S →
      Mcount (insertCell S e ⟨Value.str "", f, depsOf S e⟩) = m →
      heightOf (insertCell S e ⟨Value.str "", f, depsOf S e⟩) e = h →
      ∃ n, (updateFuel ev n e f S).isSome = true := by
  intro m
  induction m using Nat.strong_induction_on with
  | _ m IHm =>
  intro h
  induction h using Nat.strong_induction_on with
  | _ h IHh =>
  intro ev S e f hA hm hh
  obtain ⟨r, hr⟩ := Option.isSome_iff_exists.mp
    (checkParents_isSome hA e (parentsOf f))
  cases r with
  | true =>
    refine ⟨(keyList S).dedup.length + 1, ?_⟩
    rw [updateFuel_succ]
    simp only [hr]
    rfl
  | false =>
    have hguard : ∀ p ∈ parentsOf f, ¬ Reaches S e p := checkParents_eq_false hr
    set S1 := insertCell S e ⟨calculateFormula ev f S, f, depsOf S e⟩ with hS1def
    set S2 := addEdges S1 (parentsOf f) e with hS2def
    have hdeq1 : ∀ k, depsOf S k = depsOf S1 k :=
      fun k => (depsOf_insert_keep S e _ f k).symm
    have hA1 : Acyclic S1 := acyclic_of_depsEq hdeq1 hA
    have hge1 : GraphEq S1 (insertCell S e ⟨Value.str "", f, depsOf S e⟩) :=
      graphEq_insert_value S e (calculateFormula ev f S) (Value.str "") f
        (depsOf S e)
    have hm1 : Mcount S1 = m := by rw [Mcount_graphEq hge1]; exact hm
    have hS1e : (lookupCell S1 e).isSome = true := by
      rw [hS1def, lookupCell_insert_self]
      rfl
    have hmemd : ∀ p ∈ parentsOf f, p ∈ (parentsOf (formView S1 e)).dedup := by
      intro p hp
      rw [hS1def, formView_insert, if_pos rfl]
      exact List.mem_dedup.mpr hp
    have hdich2 : S2 = S1 ∨ Mcount S2 < Mcount S1 :=
      addEdges_eq_or_lt (parentsOf f) S1 e hS1e hmemd
    have hA2 : Acyclic S2 := by
      refine addEdges_acyclic hA1 ?_
      intro p hp hr2
      exact hguard p hp (reaches_of_depsEq (fun k => (hdeq1 k).symm) hr2)
    have hPstep : ∀ T c cd T' n,
        (Acyclic T ∧ Mcount T ≤ Mcount S2 ∧ (Mcount T < m ∨ GraphEq T S1)) →
        lookupCell T c = some cd → updateFuel ev n c cd.formula T = some T' →
        (Acyclic T' ∧ Mcount T' ≤ Mcount S2 ∧
          (Mcount T' < m ∨ GraphEq T' S1)) := by
      intro T c cd T' n hP hl hT'
      have hT'2 : updateFuel ev n c (formView T c) T = some T' := by
        rw [formView_of_lookup hl]
        exact hT'
      have hdich := updateFuel_dich n ev c T T' (by rw [hl]; rfl) hT'2
      refine ⟨updateFuel_acyclic n ev c cd.formula T T' hP.1 hT', ?_, ?_⟩
      · rcases hdich with hge | hlt
        · rw [Mcount_graphEq hge]
          exact hP.2.1
        · exact le_of_lt (lt_of_lt_of_le hlt hP.2.1)
      · rcases hP.2.2 with hPlt | hPge
        · rcases hdich with hge | hlt
          · left
            rw [Mcount_graphEq hge]
            exact hPlt
          · left
            exact lt_trans hlt hPlt
        · rcases hdich with hge | hlt
          · right
            exact graphEq_trans hge hPge
          · left
            rw [Mcount_graphEq hPge, hm1] at hlt
            exact hlt
    have hPcall : ∀ T c cd,
        (Acyclic T ∧ Mcount T ≤ Mcount S2 ∧ (Mcount T < m ∨ GraphEq T S1)) →
        c ∈ depsOf S2 e → lookupCell T c = some cd →
        ∃ n, (updateFuel ev n c cd.formula T).isSome = true := by
      intro T c cd hP hccs hl
      have hgeTd : GraphEq (insertCell T c ⟨Value.str "", cd.formula, depsOf T c⟩)
          T := by
        have h2 := graphEq_insert_same T c (Value.str "") (by rw [hl]; rfl)
        rw [formView_of_lookup hl] at h2
        exact h2
      rcases hP.2.2 with hPlt | hPge
      · refine IHm (Mcount (insertCell T c ⟨Value.str "", cd.formula, depsOf T c⟩))
          ?_ (heightOf (insertCell T c ⟨Value.str "", cd.formula, depsOf T c⟩) c)
          ev T c cd.formula hP.1 rfl rfl
        rw [Mcount_graphEq hgeTd]
        exact hPlt
      · have hmT : Mcount T = m := by rw [Mcount_graphEq hPge, hm1]
        have hS2S1 : S2 = S1 := by
          rcases hdich2 with heq | hlt2
          · exact heq
          · exfalso
            have h3 := hP.2.1
            rw [hm1] at hlt2
            omega
        have hcs1 : c ∈ depsOf S1 e := by
          rw [← hS2S1]
          exact hccs
        have hcs1d : c ∈ depsOf (insertCell S e ⟨Value.str "", f, depsOf S e⟩) e := by
          rw [depsOf_insert_keep]
          rw [hS1def, depsOf_insert_keep] at hcs1
          exact hcs1
        have hA1d : Acyclic (insertCell S e ⟨Value.str "", f, depsOf S e⟩) :=
          acyclic_of_depsEq (fun k => (depsOf_insert_keep S e _ f k).symm) hA
        have hge1d : GraphEq (insertCell T c ⟨Value.str "", cd.formula, depsOf T c⟩)
            (insertCell S e ⟨Value.str "", f, depsOf S e⟩) :=
          graphEq_trans (graphEq_trans hgeTd hPge) hge1
        have hheight : heightOf
            (insertCell T c ⟨Value.str "", cd.formula, depsOf T c⟩) c < h := by
          rw [heightOf_graphEq hge1d c, ← hh]
          exact heightOf_lt hA1d hcs1d
        refine IHh (heightOf (insertCell T c ⟨Value.str "", cd.formula, depsOf T c⟩) c)
          hheight ev T c cd.formula hP.1 ?_ rfl
        rw [Mcount_graphEq hgeTd]
        exact hmT
    obtain ⟨n2, hgo⟩ := goChildren_exists ev
      (fun T => Acyclic T ∧ Mcount T ≤ Mcount S2 ∧ (Mcount T < m ∨ GraphEq T S1))
      (depsOf S2 e) hPstep hPcall (depsOf S2 e) (fun q hq => hq) S2
      ⟨hA2, Nat.le_refl _, by
        rcases hdich2 with heq | hlt2
        · right
          rw [heq]
          exact graphEq_refl S1
        · left
          rw [← hm1]
          exact hlt2⟩
    obtain ⟨T2, hT2⟩ := Option.isSome_iff_exists.mp hgo
    refine ⟨max n2 ((keyList S).dedup.length) + 1, ?_⟩
    rw [updateFuel_succ]
    have hcpN : checkParents (max n2 ((keyList S).dedup.length) + 1) e S
        (parentsOf f) = some false :=
      checkParents_le (Nat.succ_le_succ (Nat.le_max_right _ _)) hr
    simp only [hcpN]
    rw [← hS1def, ← hS2def]
    have hg2 : goChildren (updateFuel ev (max n2 ((keyList S).dedup.length)))
        (depsOf S2 e) S2 = some T2 :=
      goChildren_mono_pointwise
        (fun c2 f2 Ta Tb hx => updateFuel_fuel_le (Nat.le_max_left _ _) hx)
        _ _ _ hT2
    rw [hg2]
    rfl

end Termination

section TerminationClaim

/-- Claim C8: on a finite store whose dependents relation is acyclic, the
depth-first cycle search always terminates, and a committed edit's recursive
refresh performs finitely many recursive calls: some fuel makes both return
a result. -/
theorem claim8_termination :
    ∀ (S : CellStore), Acyclic S →
      (∀ a b, ∃ n, (hasCirc n a b S).isSome = true) ∧
      (∀ (ev : String → Option Value) (e f : String),
        ∃ n, (updateFuel ev n e f S).isSome = true) := by
  intro S hA
  constructor
  · intro a b
    exact ⟨(keyList S).dedup.length + 1, hasCirc_exists hA a b⟩
  · intro ev e f
    exact updateFuel_terminates_measure
      (Mcount (insertCell S e ⟨Value.str "", f, depsOf S e⟩))
      (heightOf (insertCell S e ⟨Value.str "", f, depsOf S e⟩) e)
      ev S e f hA rfl rfl

theorem claim8_termination_witness :
    (∃ n, (hasCirc n "A1" "B1"
      [("A1", ⟨Value.str "", "", ["B1"]⟩)]).isSome = true) ∧
    (∃ n, (updateFuel evNone n "A1" "=B1"
      [("A1", ⟨Value.str "", "", ["B1"]⟩)]).isSome = true) := by
  have hdx : ∀ z, depsOf [("A1", (⟨Value.str "", "", ["B1"]⟩ : Cell))] z =
      if z = "A1" then ["B1"] else [] := by
    intro z
    by_cases hz : z = "A1"
    · subst hz
      rw [if_pos rfl]
      rfl
    · rw [if_neg hz]
      unfold depsOf lookupCell
      rw [List.find?_cons_of_neg _ (by simp [Ne.symm hz])]
      rfl
  have hA : Acyclic [("A1", ⟨Value.str "", "", ["B1"]⟩)] := by
    intro x y he hr
    have he2 : y ∈ depsOf [("A1", (⟨Value.str "", "", ["B1"]⟩ : Cell))] x := he
    rw [hdx x] at he2
    by_cases hx : x = "A1"
    · rw [if_pos hx] at he2
      have hy : y = "B1" := by simpa using he2
      subst hy
      subst hx
      rcases reaches_cases hr with heq | ⟨z, hz, _⟩
      · exact absurd heq (by decide)
      · have hz2 : z ∈ depsOf [("A1", (⟨Value.str "", "", ["B1"]⟩ : Cell))] "B1" := hz
        rw [hdx "B1", if_neg (by decide)] at hz2
        cases hz2
    · rw [if_neg hx] at he2
      cases he2
  have h := claim8_termination [("A1", ⟨Value.str "", "", ["B1"]⟩)] hA
  exact ⟨h.1 "A1" "B1", h.2 evNone "A1" "=B1"⟩

end TerminationClaim

end Spreadsheet
